import Mathlib

/-!
Verification development for the eatineater recipe-graph system.

The repository has two core source files:
* `scripts/build_graph.py` — ingestion: raw records → RDF fact graph
  (identifier normalisation, ingredient classification, diet inference,
  step and cuisine-chain construction);
* `app/graph_loader.py` — querying: SPARQL-backed filtered search and
  single-recipe detail lookup over the built graph.

We embed the fact graph as a list of subject/predicate/object triples
(`rdflib.Graph` is a set store; insertion `addFact` is guarded by
membership, so built graphs never hold duplicate facts).  URIs are
represented by their character lists so that identifier derivation
("rec:recipe-" ++ normalised name, etc.) is literal, and all string
helpers are structural recursions over `List Char`, which keeps every
definition kernel-executable (`decide` / `rfl` evaluate them).

The SPARQL queries of `graph_loader.py` are embedded by their standard
SPARQL semantics: a mandatory triple pattern restricts, an OPTIONAL
block contributes its bindings when present, a FILTER on a variable
bound in an OPTIONAL block eliminates rows where the variable is
unbound (so `FILTER(xsd:integer(?totalTime) <= t)` rejects recipes
without a total-time attribute), and `ORDER BY LCASE(?label)` is a
stable sort of the result rows by lower-cased label.
-/

/-! ### Character and string helpers -/

/-- Lower-case every character (models Python `str.lower()`; the data in
this repository is ASCII, and `Char.toLower` agrees with Python there). -/
def lowerL (l : List Char) : List Char := l.map Char.toLower

/-- Is `c` a lower-case ASCII letter or a digit?  This is the character
class `[a-z0-9]` used by `normalise_text` after lower-casing. -/
def lcAl (c : Char) : Bool :=
  (97 ≤ c.toNat && c.toNat ≤ 122) || (48 ≤ c.toNat && c.toNat ≤ 57)

/-- Does `pat` occur at the very start of `hay`?  (Substring test helper.) -/
def prefAt : List Char → List Char → Bool
  | [], _ => true
  | _ :: _, [] => false
  | p :: ps, h :: hs => p = h && prefAt ps hs

/-- Does `pat` occur contiguously anywhere in `hay`?  This models the
Python `in` test on strings and SPARQL `CONTAINS`. -/
def hasSub (hay pat : List Char) : Bool :=
  match hay with
  | [] => prefAt pat []
  | _ :: hs => prefAt pat hay || hasSub hs pat

/-- Maximal runs of `[a-z0-9]` characters of a list, left to right.
`cur` accumulates the current run in reverse. -/
def segsAux : List Char → List Char → List (List Char)
  | [], cur => if cur = [] then [] else [cur.reverse]
  | c :: cs, cur =>
      if lcAl c then segsAux cs (c :: cur)
      else if cur = [] then segsAux cs []
      else cur.reverse :: segsAux cs []

/-- Join segments with single hyphens (no leading/trailing hyphen). -/
def joinH : List (List Char) → List Char
  | [] => []
  | s :: ss =>
      match ss with
      | [] => s
      | _ :: _ => s ++ '-' :: joinH ss

/-- Identifier normalisation on character lists: lower-case, replace
each maximal run of non-alphanumerics by a single hyphen, and strip
surrounding hyphens — the net effect of
`re.sub(r"[^a-z0-9]+", "-", value.lower())` followed by collapsing and
stripping hyphens in `normalise_text`.  (The initial Python `.strip()`
is redundant: surrounding whitespace is non-alphanumeric and is
already collapsed and stripped by the hyphen step.) -/
def normaliseL (l : List Char) : List Char := joinH (segsAux (lowerL l) [])

/-- `normalise_text` of `build_graph.py` (lines 60–63). -/
def normalise_text (s : String) : String := ⟨normaliseL s.data⟩

/-- ASCII whitespace test for `str.strip()` on cuisine path segments. -/
def isWs (c : Char) : Bool := c = ' ' || c = '\t' || c = '\n' || c = '\r'

/-- Strip surrounding whitespace (Python `str.strip()`). -/
def trimL (l : List Char) : List Char :=
  ((l.dropWhile isWs).reverse.dropWhile isWs).reverse

/-- Split on the character `>` (Python `value.split(">")`; empty pieces
are kept, to be stripped and filtered by the caller). -/
def splitGt : List Char → List (List Char)
  | [] => [[]]
  | c :: cs =>
      match splitGt cs with
      | [] => [[]]
      | seg :: rest => if c = '>' then [] :: seg :: rest else (c :: seg) :: rest

/-- Lexicographic comparison of character lists by code point, used to
model `ORDER BY LCASE(?label)` of the search query. -/
def lexLe : List Char → List Char → Bool
  | [], _ => true
  | _ :: _, [] => false
  | a :: as, b :: bs =>
      if a.toNat = b.toNat then lexLe as bs else a.toNat < b.toNat

/-! ### The fact graph -/

/-- Graph node: an entity reference (URI, by its character list), an
anonymous blank node (for steps), or a typed literal. -/
inductive Node where
  | uri : List Char → Node
  | bn : Nat → Node
  | str : String → Node
  | int : Int → Node
  | flt : ℚ → Node
deriving DecidableEq, Repr

/-- One subject/predicate/object fact.  Predicates are fixed URIs and
are kept as plain strings. -/
structure Triple where
  subj : Node
  pred : String
  obj : Node
deriving DecidableEq, Repr

/-- The fact store: `rdflib.Graph` in insertion order.  `addFact` below
enforces the set semantics of the rdflib store. -/
abbrev Graph := List Triple

/-- Idempotent insert: `graph.add` on the rdflib set store. -/
def addFact (g : Graph) (f : Triple) : Graph := if f ∈ g then g else g ++ [f]

/-- Batch insert, mirroring consecutive `graph.add` calls. -/
def addFacts (g : Graph) (fs : List Triple) : Graph := fs.foldl addFact g

/-- Predicate URIs used by the builder and the queries. -/
def rdfTypeP : String := "rdf:type"

def rdfsLabelP : String := "rdfs:label"

def subClassOfP : String := "rdfs:subClassOf"

def hasIngredientP : String := "rec:hasIngredient"

def hasCuisineP : String := "rec:hasCuisine"

def hasDietP : String := "rec:hasDiet"

def avoidsCategoryP : String := "rec:avoidsIngredientCategory"

def hasRatingP : String := "rec:hasRating"

def hasPrepTimeP : String := "rec:hasPrepTime"

def hasCookTimeP : String := "rec:hasCookTime"

def hasTotalTimeP : String := "rec:hasTotalTime"

def hasServingsP : String := "rec:hasServings"

def schemaUrlP : String := "schema:url"

def schemaStepP : String := "schema:step"

def schemaPositionP : String := "schema:position"

/-- Class and individual URIs. -/
def recipeCls : Node := Node.uri "rec:Recipe".data

def ingredientCls : Node := Node.uri "rec:Ingredient".data

def cuisineCls : Node := Node.uri "rec:Cuisine".data

def dietTypeCls : Node := Node.uri "rec:DietType".data

def animalCls : Node := Node.uri "rec:AnimalProduct".data

def glutenCls : Node := Node.uri "rec:GlutenIngredient".data

def owlClassN : Node := Node.uri "owl:Class".data

def owlObjPropN : Node := Node.uri "owl:ObjectProperty".data

def owlDataPropN : Node := Node.uri "owl:DatatypeProperty".data

def howToStepCls : Node := Node.uri "schema:HowToStep".data

def veganN : Node := Node.uri "rec:Vegan".data

def vegetarianN : Node := Node.uri "rec:Vegetarian".data

def glutenFreeN : Node := Node.uri "rec:GlutenFree".data

/-- Entity identifiers are the namespace prefix of the kind followed by
the normalised label (`REC[f"recipe-{id}"]` etc. in the source). -/
def recipeUriOf (name : String) : Node :=
  Node.uri ("rec:recipe-".data ++ normaliseL name.data)

def ingredientUriOf (label : String) : Node :=
  Node.uri ("rec:ingredient-".data ++ normaliseL label.data)

def cuisineUriOf (seg : List Char) : Node :=
  Node.uri ("rec:cuisine-".data ++ normaliseL seg)

/-! ### Query primitives (triple pattern matching) -/

/-- All objects of facts with the given subject and predicate, in store
order — the matches of the pattern `?s p ?o` with `?s` fixed. -/
def objsOf (g : Graph) (s : Node) (p : String) : List Node :=
  g.filterMap fun f => if f.subj = s ∧ f.pred = p then some f.obj else none

/-- String payloads of the `rdfs:label` objects of a subject. -/
def strLabelsOf (g : Graph) (s : Node) : List String :=
  (objsOf g s rdfsLabelP).filterMap fun o =>
    match o with
    | Node.str l => some l
    | _ => none

/-- Integer payloads of the objects of a datatype property. -/
def intObjsOf (g : Graph) (s : Node) (p : String) : List Int :=
  (objsOf g s p).filterMap fun o =>
    match o with
    | Node.int n => some n
    | _ => none

/-- Rational payloads of the objects of a datatype property. -/
def ratObjsOf (g : Graph) (s : Node) (p : String) : List ℚ :=
  (objsOf g s p).filterMap fun o =>
    match o with
    | Node.flt q => some q
    | _ => none

/-- String payloads of the objects of a property (e.g. `schema:url`). -/
def strObjsOf (g : Graph) (s : Node) (p : String) : List String :=
  (objsOf g s p).filterMap fun o =>
    match o with
    | Node.str l => some l
    | _ => none

/-- Subjects matching the pattern `?recipe a rec:Recipe`, in store
order. -/
def typedRecipes (g : Graph) : List Node :=
  g.filterMap fun f =>
    if f.pred = rdfTypeP ∧ f.obj = recipeCls then some f.subj else none

/-! ### The graph builder (`scripts/build_graph.py`) -/

/-- A parsed input record (`RecipeRecord` dataclass, lines 22–33).
Ratings are floats; we model the finite floats this repository meets by
rationals. -/
structure RecipeRecord where
  name : String
  prep_time : Option Int
  cook_time : Option Int
  total_time : Option Int
  servings : Option Int
  ingredients : List String
  directions : List String
  rating : Option ℚ
  url : Option String
  cuisine_path : Option String
deriving DecidableEq, Repr

/-- Animal-product keyword set (lines 36–55; Python iterates a set, but
`any` over the members is order-independent). -/
def ANIMAL_PRODUCTS : List String :=
  ["anchovy", "bacon", "beef", "butter", "chicken", "egg", "fish",
   "gelatin", "honey", "lamb", "milk", "pork", "shrimp", "turkey",
   "yogurt", "parmesan", "cream", "cheese"]

/-- Gluten-bearing keyword set (line 57). -/
def GLUTEN_GRAINS : List String :=
  ["wheat", "barley", "rye", "spelt", "farro", "semolina", "flour",
   "spaghetti", "pasta", "bread"]

/-- Meat tokens of `infer_diets` (line 185). -/
def MEAT_TOKENS : List String :=
  ["chicken", "beef", "pork", "lamb", "fish", "shrimp", "turkey"]

/-- `annotate_ingredient` (lines 156–168): create-or-reuse the
ingredient entity; on first creation attach the label and, by substring
containment of the keyword lists in the lower-cased label, the
`AnimalProduct` / `GlutenIngredient` category markers. -/
def annotate_ingredient (g : Graph) (label : String) : Graph × Node :=
  let u := ingredientUriOf label
  if (⟨u, rdfTypeP, ingredientCls⟩ : Triple) ∈ g then (g, u)
  else
    let g := addFact g ⟨u, rdfTypeP, ingredientCls⟩
    let g := addFact g ⟨u, rdfsLabelP, Node.str label⟩
    let lowered := lowerL label.data
    let g :=
      if ANIMAL_PRODUCTS.any (fun t => hasSub lowered t.data) then
        addFact g ⟨u, rdfTypeP, animalCls⟩
      else g
    let g :=
      if GLUTEN_GRAINS.any (fun t => hasSub lowered t.data) then
        addFact g ⟨u, rdfTypeP, glutenCls⟩
      else g
    (g, u)

/-- First stored label of a subject: `graph.value(uri, RDFS.label)`. -/
def labelValue (g : Graph) (u : Node) : Option String := (strLabelsOf g u).head?

/-- `infer_diets` (lines 171–197). -/
def infer_diets (g : Graph) (recipe : Node) (uris : List Node) : Graph :=
  let has_animal := uris.any fun u => decide ((⟨u, rdfTypeP, animalCls⟩ : Triple) ∈ g)
  let has_gluten := uris.any fun u => decide ((⟨u, rdfTypeP, glutenCls⟩ : Triple) ∈ g)
  let g :=
    if has_animal then
      let has_meat := uris.any fun u =>
        match labelValue g u with
        | some l => MEAT_TOKENS.any fun t => hasSub (lowerL l.data) t.data
        | none => false
      if has_meat then g else addFact g ⟨recipe, hasDietP, vegetarianN⟩
    else
      addFact (addFact g ⟨recipe, hasDietP, veganN⟩) ⟨recipe, hasDietP, vegetarianN⟩
  let g := if has_gluten then g else addFact g ⟨recipe, hasDietP, glutenFreeN⟩
  let g := if has_animal then addFact g ⟨recipe, avoidsCategoryP, animalCls⟩ else g
  let g := if has_gluten then addFact g ⟨recipe, avoidsCategoryP, glutenCls⟩ else g
  g

/-- Scalar attributes of a recipe (lines 209–220): attach url, rating
and times only when present (Python truthiness for `url`, `is not None`
for the numeric fields). -/
def addScalars (g : Graph) (r : Node) (record : RecipeRecord) : Graph :=
  let g := match record.url with
    | some u => if u = "" then g else addFact g ⟨r, schemaUrlP, Node.str u⟩
    | none => g
  let g := match record.rating with
    | some q => addFact g ⟨r, hasRatingP, Node.flt q⟩
    | none => g
  let g := match record.prep_time with
    | some n => addFact g ⟨r, hasPrepTimeP, Node.int n⟩
    | none => g
  let g := match record.cook_time with
    | some n => addFact g ⟨r, hasCookTimeP, Node.int n⟩
    | none => g
  let g := match record.total_time with
    | some n => addFact g ⟨r, hasTotalTimeP, Node.int n⟩
    | none => g
  let g := match record.servings with
    | some n => addFact g ⟨r, hasServingsP, Node.int n⟩
    | none => g
  g

/-- Ingredient loop (lines 222–226): annotate each ingredient, collect
its entity, attach `hasIngredient`. -/
def addIngredients (g : Graph) (r : Node) :
    List String → List Node → Graph × List Node
  | [], acc => (g, acc)
  | label :: rest, acc =>
      let gu := annotate_ingredient g label
      let g := addFact gu.1 ⟨r, hasIngredientP, gu.2⟩
      addIngredients g r rest (acc ++ [gu.2])

/-- Direction loop (lines 230–235): one fresh blank node per direction,
with label and 1-based position; `bn` is the supply of fresh blank-node
identifiers. -/
def addSteps (g : Graph) (r : Node) :
    List String → Nat → Nat → Graph × Nat
  | [], _, bn => (g, bn)
  | d :: ds, idx, bn =>
      let g := addFact g ⟨Node.bn bn, rdfTypeP, howToStepCls⟩
      let g := addFact g ⟨Node.bn bn, rdfsLabelP, Node.str d⟩
      let g := addFact g ⟨Node.bn bn, schemaPositionP, Node.int (idx : Int)⟩
      let g := addFact g ⟨r, schemaStepP, Node.bn bn⟩
      addSteps g r ds (idx + 1) (bn + 1)

/-- Cuisine chain loop (lines 239–250): create-or-reuse each segment's
cuisine node, link it to its predecessor via `rdfs:subClassOf`, and
after the loop attach the last node (if any) to the recipe via
`hasCuisine`. -/
def addCuisineChain (g : Graph) (r : Node) :
    List (List Char) → Option Node → Graph
  | [], parent =>
      match parent with
      | some p => addFact g ⟨r, hasCuisineP, p⟩
      | none => g
  | seg :: rest, parent =>
      let cu := cuisineUriOf seg
      let g :=
        if (⟨cu, rdfTypeP, cuisineCls⟩ : Triple) ∈ g then g
        else addFact (addFact g ⟨cu, rdfTypeP, cuisineCls⟩)
              ⟨cu, rdfsLabelP, Node.str ⟨seg⟩⟩
      let g := match parent with
        | some p => addFact g ⟨cu, subClassOfP, p⟩
        | none => g
      addCuisineChain g r rest (some cu)

/-- The trimmed non-empty segments of a cuisine path (line 238). -/
def cuisineSegs (p : String) : List (List Char) :=
  ((splitGt p.data).map trimL).filter (fun x => x ≠ [])

/-- Body of the record loop of `populate_graph` (lines 201–250),
threading the fresh blank-node counter.  Records whose name is the
empty string are skipped (`if not record.name: continue`). -/
def populate_record (g : Graph) (bn : Nat) (record : RecipeRecord) :
    Graph × Nat :=
  if record.name = "" then (g, bn)
  else
    let r := recipeUriOf record.name
    let g := addFact g ⟨r, rdfTypeP, recipeCls⟩
    let g := addFact g ⟨r, rdfsLabelP, Node.str record.name⟩
    let g := addScalars g r record
    let gu := addIngredients g r record.ingredients []
    let g := infer_diets gu.1 r gu.2
    let gb := addSteps g r record.directions 1 bn
    let g := gb.1
    let g := match record.cuisine_path with
      | some p => if p = "" then g else addCuisineChain g r (cuisineSegs p) none
      | none => g
    (g, gb.2)

/-- `populate_graph` (lines 200–250). -/
def populate_graph (g : Graph) (bn : Nat) : List RecipeRecord → Graph × Nat
  | [] => (g, bn)
  | record :: rest =>
      let gb := populate_record g bn record
      populate_graph gb.1 gb.2 rest

/-- `add_ontology_schema` (lines 128–153): class and property
declarations plus the three global diet singletons. -/
def add_ontology_schema (g : Graph) : Graph :=
  addFacts g
    [⟨recipeCls, rdfTypeP, owlClassN⟩,
     ⟨ingredientCls, rdfTypeP, owlClassN⟩,
     ⟨cuisineCls, rdfTypeP, owlClassN⟩,
     ⟨dietTypeCls, rdfTypeP, owlClassN⟩,
     ⟨animalCls, rdfTypeP, owlClassN⟩,
     ⟨glutenCls, rdfTypeP, owlClassN⟩,
     ⟨Node.uri hasIngredientP.data, rdfTypeP, owlObjPropN⟩,
     ⟨Node.uri hasCuisineP.data, rdfTypeP, owlObjPropN⟩,
     ⟨Node.uri hasDietP.data, rdfTypeP, owlObjPropN⟩,
     ⟨Node.uri avoidsCategoryP.data, rdfTypeP, owlObjPropN⟩,
     ⟨Node.uri hasPrepTimeP.data, rdfTypeP, owlDataPropN⟩,
     ⟨Node.uri hasCookTimeP.data, rdfTypeP, owlDataPropN⟩,
     ⟨Node.uri hasTotalTimeP.data, rdfTypeP, owlDataPropN⟩,
     ⟨Node.uri hasServingsP.data, rdfTypeP, owlDataPropN⟩,
     ⟨Node.uri hasRatingP.data, rdfTypeP, owlDataPropN⟩,
     ⟨veganN, rdfTypeP, dietTypeCls⟩,
     ⟨veganN, rdfsLabelP, Node.str "Vegan"⟩,
     ⟨vegetarianN, rdfTypeP, dietTypeCls⟩,
     ⟨vegetarianN, rdfsLabelP, Node.str "Vegetarian"⟩,
     ⟨glutenFreeN, rdfTypeP, dietTypeCls⟩,
     ⟨glutenFreeN, rdfsLabelP, Node.str "GlutenFree"⟩]

/-- `build_graph` (lines 253–257): the spec's `buildStore`. -/
def build_graph (records : List RecipeRecord) : Graph :=
  (populate_graph (add_ontology_schema []) 0 records).1

/-! ### Scalar ingestion (`load_records`, lines 83–125) -/

/-- A raw scalar cell as Python sees it: `None`, an int, a finite float
(modelled by a rational), a float NaN, or a string.  (Infinite floats,
which `int()` rejects with an uncaught `OverflowError`, are outside the
modelled domain.) -/
inductive PyVal where
  | none : PyVal
  | vint : Int → PyVal
  | vfloat : ℚ → PyVal
  | nan : PyVal
  | vstr : String → PyVal
deriving DecidableEq, Repr

/-- Digits of a decimal numeral; `Option.none` when a non-digit occurs
or the list is empty. -/
def digitsVal : List Char → Option Nat
  | [] => Option.none
  | c :: cs =>
      if 48 ≤ c.toNat ∧ c.toNat ≤ 57 then
        match cs with
        | [] => some (c.toNat - 48)
        | _ :: _ => (digitsVal cs).map fun n => (c.toNat - 48) * 10 ^ cs.length + n
      else Option.none

/-- Python `int(s)` on a string: surrounding whitespace is ignored, an
optional sign precedes a non-empty digit run; anything else raises
`ValueError` (modelled by `Option.none`).  (Underscore digit grouping,
which CPython also accepts, does not occur in this data set and is left
out of the modelled domain.) -/
def pyIntOfString (s : String) : Option Int :=
  match trimL s.data with
  | '+' :: rest => (digitsVal rest).map fun n => (n : Int)
  | '-' :: rest => (digitsVal rest).map fun n => -(n : Int)
  | cs => (digitsVal cs).map fun n => (n : Int)

/-- Value of an optional fraction part read as digits after the point. -/
def fracVal (cs : List Char) : Option ℚ :=
  (digitsVal cs).map fun n => (n : ℚ) / (10 : ℚ) ^ cs.length

/-- Python `float(s)` on a plain decimal string: optional sign, digits,
optional point and fraction digits (exponent forms and `inf`/`nan`
words are outside the modelled domain). -/
def pyFloatOfString (s : String) : Option ℚ :=
  let numOf : List Char → Option ℚ := fun cs =>
    match cs.splitOn '.' with
    | [whole] => (digitsVal whole).map fun n => (n : ℚ)
    | [whole, frac] =>
        match whole, frac with
        | [], _ => (fracVal frac)
        | _, [] => (digitsVal whole).map fun n => (n : ℚ)
        | _, _ =>
            match digitsVal whole, fracVal frac with
            | some n, some f => some ((n : ℚ) + f)
            | _, _ => Option.none
    | _ => Option.none
  match trimL s.data with
  | '+' :: rest => numOf rest
  | '-' :: rest => (numOf rest).map Neg.neg
  | cs => numOf cs

/-- Truncation toward zero, which is what Python `int(float)` does. -/
def ratTrunc (q : ℚ) : Int := if 0 ≤ q then ⌊q⌋ else ⌈q⌉

/-- `to_optional_int` (lines 83–89): `None` and float NaN become absent;
otherwise `int(value)` is attempted and `TypeError`/`ValueError` make
the field absent. -/
def to_optional_int : PyVal → Option Int
  | PyVal.none => Option.none
  | PyVal.nan => Option.none
  | PyVal.vint n => some n
  | PyVal.vfloat q => some (ratTrunc q)
  | PyVal.vstr s => pyIntOfString s

/-- `to_optional_float` (lines 92–98). -/
def to_optional_float : PyVal → Option ℚ
  | PyVal.none => Option.none
  | PyVal.nan => Option.none
  | PyVal.vint n => some (n : ℚ)
  | PyVal.vfloat q => some q
  | PyVal.vstr s => pyFloatOfString s

/-- A raw row as handed to the record loop of `load_records`
(lines 110–124).  The multi-valued `ingredients`/`directions` cells are
taken after `parse_sequence`, whose output type is a list of trimmed
non-empty strings; no claim concerns its three input shapes. -/
structure RawRow where
  recipe_name : String
  prep_time : PyVal
  cook_time : PyVal
  total_time : PyVal
  servings : PyVal
  ingredients : List String
  directions : List String
  rating : PyVal
  url : Option String
  cuisine_path : Option String
deriving Repr

/-- Body of the `load_records` loop (lines 111–124). -/
def load_record (row : RawRow) : RecipeRecord :=
  { name := ⟨trimL row.recipe_name.data⟩
  , prep_time := to_optional_int row.prep_time
  , cook_time := to_optional_int row.cook_time
  , total_time := to_optional_int row.total_time
  , servings := to_optional_int row.servings
  , ingredients := row.ingredients
  , directions := row.directions
  , rating := to_optional_float row.rating
  , url := row.url
  , cuisine_path := row.cuisine_path }

/-! ### The query layer (`app/graph_loader.py`) -/

/-- `RecipeSummary` dataclass (lines 17–25). -/
structure RecipeSummary where
  uri : Node
  label : String
  url : Option String
  rating : Option ℚ
  total_time : Option Int
  cuisines : List String
  diets : List String
deriving DecidableEq, Repr

/-- `RecipeDetail` dataclass (lines 28–31). -/
structure RecipeDetail extends RecipeSummary where
  ingredients : List String
  directions : List String
deriving DecidableEq, Repr

/-- Append-if-absent accumulation: the `if value not in list: append`
loops of `recipe_detail`, and the value sets collected per recipe by
`search` (Python builds a `set` and lists it; its per-process iteration
order is modelled as first-seen order). -/
def appendDedup (acc : List String) (xs : List String) : List String :=
  xs.foldl (fun acc x => if x ∈ acc then acc else acc ++ [x]) acc

/-- The ingredient filter clause of `search` (lines 95–98): when a
non-empty filter string is supplied (`if ingredient:`), the recipe must
have an ingredient whose label contains the filter text
case-insensitively; `None` or the empty string impose nothing. -/
def ingredientOk (g : Graph) (r : Node) : Option String → Bool
  | Option.none => true
  | some s =>
      if s = "" then true
      else
        (objsOf g r hasIngredientP).any fun i =>
          (strLabelsOf g i).any fun l => hasSub (lowerL l.data) (lowerL s.data)

/-- The cuisine filter clause of `search` (lines 100–103): a separate
join binding (`?cuisineFilterUri`), label equal case-insensitively. -/
def cuisineOk (g : Graph) (r : Node) : Option String → Bool
  | Option.none => true
  | some s =>
      if s = "" then true
      else
        (objsOf g r hasCuisineP).any fun u =>
          (strLabelsOf g u).any fun l => lowerL l.data = lowerL s.data

/-- The diet filter clause of `search` (lines 105–108). -/
def dietOk (g : Graph) (r : Node) : Option String → Bool
  | Option.none => true
  | some s =>
      if s = "" then true
      else
        (objsOf g r hasDietP).any fun u =>
          (strLabelsOf g u).any fun l => lowerL l.data = lowerL s.data

/-- The total-time filter of `search` (lines 110–111):
`FILTER(xsd:integer(?totalTime) <= t)` with `?totalTime` bound by an
OPTIONAL clause, so a recipe with no integer total-time attribute has
no row satisfying the filter and is excluded. -/
def timeOk (g : Graph) (r : Node) : Option Int → Bool
  | Option.none => true
  | some t => (intObjsOf g r hasTotalTimeP).any fun v => v ≤ t

/-- Conjunction of all four (optional) filter clauses of `search`. -/
def passes (g : Graph) (r : Node) (ing cui die : Option String)
    (mt : Option Int) : Bool :=
  ingredientOk g r ing && cuisineOk g r cui && dietOk g r die && timeOk g r mt

/-- The result rows of the search query, projected to the
(recipe, label) components that drive ordering and grouping: one row
per label of each recipe satisfying every filter.  (The remaining
OPTIONAL bindings multiply rows but are collapsed again by the
grouping loop; the per-recipe summary fields are recomputed directly
in `mkSummary`.) -/
def searchRows (g : Graph) (ing cui die : Option String) (mt : Option Int) :
    List (Node × String) :=
  (typedRecipes g).flatMap fun r =>
    if passes g r ing cui die mt then (strLabelsOf g r).map fun l => (r, l)
    else []

/-- Row order of `ORDER BY LCASE(?label)`. -/
def rowLe (a b : Node × String) : Bool :=
  lexLe (lowerL a.2.data) (lowerL b.2.data)

/-- Insert into a sorted row list, before any row of equal key (the
sort of the SPARQL engine is stable). -/
def insRow (a : Node × String) : List (Node × String) → List (Node × String)
  | [] => [a]
  | b :: bs => if rowLe a b then a :: b :: bs else b :: insRow a bs

/-- Stable sort of the result rows by lower-cased label. -/
def sortRows : List (Node × String) → List (Node × String)
  | [] => []
  | a :: rest => insRow a (sortRows rest)

/-- Keep the first row of each recipe (`if recipe_uri not in
recipe_data`, lines 134–153); `seen` holds the keys already emitted. -/
def firstByKey : List (Node × String) → List Node → List (Node × String)
  | [], _ => []
  | rl :: rest, seen =>
      if rl.1 ∈ seen then firstByKey rest seen
      else rl :: firstByKey rest (rl.1 :: seen)

/-- All cuisine labels associated with a recipe, via the display join
`OPTIONAL { ?recipe rec:hasCuisine ?cuisine . ?cuisine rdfs:label
?cuisineLabel }` (line 89) — independent of any filter binding. -/
def cuisineLabels (g : Graph) (r : Node) : List String :=
  (objsOf g r hasCuisineP).flatMap fun u => strLabelsOf g u

/-- All diet labels associated with a recipe (display join, line 90). -/
def dietLabels (g : Graph) (r : Node) : List String :=
  (objsOf g r hasDietP).flatMap fun u => strLabelsOf g u

/-- The summary assembled for one recipe by the grouping loop of
`search` (lines 134–167): scalar fields from the recipe's first
surviving row, cuisines and diets collected over all its rows.  Under
the row product semantics the first surviving row carries the first
bound value of each OPTIONAL (for total time, the first value passing
the time filter), and the collected cuisine/diet sets are exactly the
display-join labels. -/
def mkSummary (g : Graph) (mt : Option Int) (r : Node) (lbl : String) :
    RecipeSummary :=
  { uri := r
  , label := lbl
  , url := (strObjsOf g r schemaUrlP).head?
  , rating := (ratObjsOf g r hasRatingP).head?
  , total_time :=
      match mt with
      | Option.none => (intObjsOf g r hasTotalTimeP).head?
      | some t => ((intObjsOf g r hasTotalTimeP).filter fun v => v ≤ t).head?
  , cuisines := appendDedup [] (cuisineLabels g r)
  , diets := appendDedup [] (dietLabels g r) }

/-- `RecipeGraph.search` (lines 75–169): evaluate the four optional
filter clauses, order rows by lower-cased label, group by recipe
keeping first-seen order, and assemble one summary per recipe. -/
def search (g : Graph) (ingredient cuisine diet : Option String)
    (max_total_time : Option Int) : List RecipeSummary :=
  (firstByKey (sortRows (searchRows g ingredient cuisine diet max_total_time)) []).map
    fun rl => mkSummary g max_total_time rl.1 rl.2

/-- Ingredient labels of a recipe as encountered by the detail join
(line 182). -/
def ingredientLabels (g : Graph) (r : Node) : List String :=
  (objsOf g r hasIngredientP).flatMap fun u => strLabelsOf g u

/-- Direction texts of a recipe as encountered by the detail join
(line 183): the labels of its step nodes, in store order — the stored
position is not consulted. -/
def stepLabels (g : Graph) (r : Node) : List String :=
  (objsOf g r schemaStepP).flatMap fun u => strLabelsOf g u

/-- `RecipeGraph.recipe_detail` (lines 171–222): the query's only
mandatory pattern is `?recipe rdfs:label ?label`, so a subject with no
label fact yields no rows and `None` is returned; otherwise the scalar
fields come from the first row and the four multi-valued lists are
accumulated over the row product with append-if-absent, which in
first-seen order deduplicates each OPTIONAL factor. -/
def recipe_detail (g : Graph) (r : Node) : Option RecipeDetail :=
  match strLabelsOf g r with
  | [] => Option.none
  | lbl :: _ =>
      some
        { uri := r
        , label := lbl
        , url := (strObjsOf g r schemaUrlP).head?
        , rating := (ratObjsOf g r hasRatingP).head?
        , total_time := (intObjsOf g r hasTotalTimeP).head?
        , cuisines := appendDedup [] (cuisineLabels g r)
        , diets := appendDedup [] (dietLabels g r)
        , ingredients := appendDedup [] (ingredientLabels g r)
        , directions := appendDedup [] (stepLabels g r) }

/-! ### Substring lemmas -/

/-- First-seen deduplication as the spec words it: keep each value the
first time it is encountered, drop its later repetitions.  This is the
reference definition the append-if-absent loops are compared with. -/
def specFirstSeenDedup : List String → List String
  | [] => []
  | x :: xs => x :: specFirstSeenDedup (xs.filter fun y => decide (y ≠ x))
termination_by l => l.length
decreasing_by
  simp only [List.length_cons]
  exact Nat.lt_succ_of_le (List.length_filter_le _ _)

/-- The predicates a recipe's scalar block can attach. -/
def scalarPreds : List String :=
  [schemaUrlP, hasRatingP, hasPrepTimeP, hasCookTimeP, hasTotalTimeP,
   hasServingsP]

/-- Well-formedness established by the builder: each subject typed as a
Recipe has at least one string label (the builder attaches type and
label together). -/
def recipesLabeled (g : Graph) : Prop :=
  ∀ r ∈ typedRecipes g, strLabelsOf g r ≠ []

/-- The spec's concrete scenario record (§8): Lentil Soup. -/
def lentilRec : RecipeRecord :=
  { name := "Lentil Soup"
  , prep_time := Option.none
  , cook_time := Option.none
  , total_time := some 45
  , servings := some 4
  , ingredients := ["Lentils", "Vegetable Stock"]
  , directions := ["Boil the stock.", "Simmer the lentils."]
  , rating := Option.none
  , url := Option.none
  , cuisine_path := some "Asian>Indian" }

/-- A recipe with no ingredients and no cuisine associations. -/
def teaRec : RecipeRecord :=
  { name := "Tea"
  , prep_time := Option.none
  , cook_time := Option.none
  , total_time := Option.none
  , servings := Option.none
  , ingredients := []
  , directions := []
  , rating := Option.none
  , url := Option.none
  , cuisine_path := Option.none }

def gLentil : Graph := build_graph [lentilRec, teaRec]

def lentilUri : Node := recipeUriOf "Lentil Soup"

def teaUri : Node := recipeUriOf "Tea"

/-! ### Claim C8 -/

/-- The detail record `recipe_detail` assembles for Lentil Soup in the
concrete store `gLentil`. -/
def lentilDetail : RecipeDetail :=
  { uri := lentilUri
  , label := "Lentil Soup"
  , url := Option.none
  , rating := Option.none
  , total_time := some 45
  , cuisines := ["Indian"]
  , diets := ["Vegan", "Vegetarian", "GlutenFree"]
  , ingredients := ["Lentils", "Vegetable Stock"]
  , directions := ["Boil the stock.", "Simmer the lentils."] }

/-- A record whose name has no alphanumeric characters. -/
def bangRec : RecipeRecord :=
  { name := "!!!"
  , prep_time := Option.none
  , cook_time := Option.none
  , total_time := Option.none
  , servings := Option.none
  , ingredients := []
  , directions := []
  , rating := Option.none
  , url := Option.none
  , cuisine_path := Option.none }

/-- A concrete raw row exercising the scalar-ingestion cases. -/
def rowW : RawRow :=
  { recipe_name := "Porridge"
  , prep_time := PyVal.vfloat (181 / 2)
  , cook_time := PyVal.nan
  , total_time := PyVal.vint 30
  , servings := PyVal.vstr "90.5"
  , ingredients := ["Oats"]
  , directions := []
  , rating := PyVal.none
  , url := Option.none
  , cuisine_path := Option.none }

/-- The ingredient entity of "Chicken Stock" (and of every label with
the same normalisation). -/
def chickenUri : Node := ingredientUriOf "Chicken Stock"

/-- What holds of the chicken-stock ingredient once it has been
annotated: it carries the `AnimalProduct` marker, and its stored label
contains the meat token "chicken" (lower-cased). -/
def chickenProp (g : Graph) : Prop :=
  (⟨chickenUri, rdfTypeP, animalCls⟩ : Triple) ∈ g ∧
    ∃ l0, labelValue g chickenUri = some l0 ∧
      hasSub (lowerL l0.data) "chicken".data = true

/-- Invariant carried through the ingredient loop: if the chicken-stock
entity has been created then `chickenProp` holds, and before creation
it has no label facts. -/
def chickenINV (g : Graph) : Prop :=
  ((⟨chickenUri, rdfTypeP, ingredientCls⟩ : Triple) ∈ g → chickenProp g) ∧
  ((⟨chickenUri, rdfTypeP, ingredientCls⟩ : Triple) ∉ g →
    objsOf g chickenUri rdfsLabelP = [])

/-- No entity carries the `GlutenIngredient` marker. -/
def noGlutenMarks (g : Graph) : Prop :=
  ∀ x : Node, (⟨x, rdfTypeP, glutenCls⟩ : Triple) ∉ g

/-- A concrete record containing the "Chicken Stock" ingredient. -/
def chickRec : RecipeRecord :=
  { name := "Chicken Soup"
  , prep_time := Option.none
  , cook_time := Option.none
  , total_time := some 30
  , servings := Option.none
  , ingredients := ["Chicken Stock", "Rice"]
  , directions := ["Simmer."]
  , rating := Option.none
  , url := Option.none
  , cuisine_path := Option.none }

/-- The node the cuisine loop leaves in its `parent` variable: the last
segment's node, or the initial parent when there are no segments. -/
def chainLast : List (List Char) → Option Node → Option Node
  | [], parent => parent
  | seg :: rest, _ => chainLast rest (some (cuisineUriOf seg))

/-- A second record sharing the "Asian" cuisine ancestor. -/
def thaiRec : RecipeRecord :=
  { name := "Pad Thai"
  , prep_time := Option.none
  , cook_time := Option.none
  , total_time := Option.none
  , servings := Option.none
  , ingredients := ["Rice Noodles"]
  , directions := []
  , rating := Option.none
  , url := Option.none
  , cuisine_path := some "Asian>Thai" }

theorem prefAt_iff (pat hay : List Char) :
    prefAt pat hay = true ↔ ∃ post, hay = pat ++ post := by
  induction pat generalizing hay with
  | nil => simp [prefAt]
  | cons p ps ih =>
      cases hay with
      | nil => simp [prefAt]
      | cons h hs =>
          simp only [prefAt, Bool.and_eq_true, decide_eq_true_eq, ih,
            List.cons_append, List.cons.injEq]
          constructor
          · rintro ⟨rfl, post, rfl⟩; exact ⟨post, rfl, rfl⟩
          · rintro ⟨post, rfl, rfl⟩; exact ⟨rfl, post, rfl⟩

theorem hasSub_iff (hay pat : List Char) :
    hasSub hay pat = true ↔ ∃ pre post, hay = pre ++ pat ++ post := by
  induction hay with
  | nil =>
      cases pat with
      | nil => simp [hasSub, prefAt]
      | cons p ps => simp [hasSub, prefAt]
  | cons h hs ih =>
      simp only [hasSub, Bool.or_eq_true, prefAt_iff, ih]
      constructor
      · rintro (⟨post, heq⟩ | ⟨pre, post, heq⟩)
        · exact ⟨[], post, by simpa using heq⟩
        · exact ⟨h :: pre, post, by simp [heq]⟩
      · rintro ⟨pre, post, heq⟩
        cases pre with
        | nil => exact Or.inl ⟨post, by simpa using heq⟩
        | cons q qs =>
            simp only [List.cons_append, List.cons.injEq] at heq
            exact Or.inr ⟨qs, post, heq.2⟩

theorem hasSub_of_within (hay seg t : List Char)
    (h : hasSub seg t = true) (pre post : List Char)
    (heq : hay = pre ++ seg ++ post) : hasSub hay t = true := by
  rcases (hasSub_iff seg t).1 h with ⟨a, b, rfl⟩
  refine (hasSub_iff hay t).2 ⟨pre ++ a, b ++ post, ?_⟩
  subst heq; simp

theorem prefAt_avoid (t x y : List Char) (c : Char)
    (hc : c ∉ t) (h : prefAt t (x ++ c :: y) = true) : prefAt t x = true := by
  induction t generalizing x with
  | nil => simp [prefAt]
  | cons a as ih =>
      cases x with
      | nil =>
          simp only [List.nil_append, prefAt, Bool.and_eq_true,
            decide_eq_true_eq] at h
          exact absurd (h.1 ▸ List.mem_cons_self a as) hc
      | cons b bs =>
          simp only [List.cons_append, prefAt, Bool.and_eq_true,
            decide_eq_true_eq] at h ⊢
          exact ⟨h.1, ih bs (fun hm => hc (List.mem_cons_of_mem a hm)) h.2⟩

theorem hasSub_split (x y t : List Char) (c : Char) (hc : c ∉ t)
    (h : hasSub (x ++ c :: y) t = true) :
    hasSub x t = true ∨ hasSub y t = true := by
  induction x with
  | nil =>
      simp only [List.nil_append, hasSub, Bool.or_eq_true] at h
      rcases h with h | h
      · cases t with
        | nil => exact Or.inl (by simp [hasSub, prefAt])
        | cons a as =>
            simp only [prefAt, Bool.and_eq_true, decide_eq_true_eq] at h
            exact absurd (h.1 ▸ List.mem_cons_self a as) hc
      · exact Or.inr h
  | cons b bs ih =>
      simp only [List.cons_append, hasSub, Bool.or_eq_true] at h
      rcases h with h | h
      · have := prefAt_avoid t (b :: bs) y c hc (by simpa using h)
        exact Or.inl (by simp [hasSub, this])
      · rcases ih h with h' | h'
        · exact Or.inl (by simp [hasSub, h'])
        · exact Or.inr h'

theorem segsAux_within (l : List Char) (cur seg : List Char)
    (h : seg ∈ segsAux l cur) :
    ∃ pre post, cur.reverse ++ l = pre ++ seg ++ post := by
  induction l generalizing cur with
  | nil =>
      by_cases hcur : cur = []
      · simp [segsAux, hcur] at h
      · simp only [segsAux, if_neg hcur, List.mem_singleton] at h
        exact ⟨[], [], by simp [h]⟩
  | cons c cs ih =>
      by_cases hAl : lcAl c = true
      · simp only [segsAux, if_pos hAl] at h
        rcases ih (c :: cur) h with ⟨pre, post, heq⟩
        refine ⟨pre, post, ?_⟩
        simpa [List.append_assoc] using heq
      · simp only [segsAux, if_neg hAl] at h
        by_cases hcur : cur = []
        · rw [if_pos hcur] at h
          subst hcur
          rcases ih [] h with ⟨pre, post, heq⟩
          simp only [List.reverse_nil, List.nil_append] at heq ⊢
          exact ⟨c :: pre, post, by rw [heq]; simp⟩
        · rw [if_neg hcur] at h
          rcases List.mem_cons.1 h with rfl | h'
          · exact ⟨[], c :: cs, by simp⟩
          · rcases ih [] h' with ⟨pre, post, heq⟩
            simp only [List.reverse_nil, List.nil_append] at heq
            exact ⟨cur.reverse ++ c :: pre, post, by
              rw [heq]; simp [List.append_assoc]⟩

theorem hyphen_not_mem_of_all_lcAl (t : List Char)
    (hAl : t.all lcAl = true) : '-' ∉ t := by
  intro hm
  have := (List.all_eq_true.1 hAl) '-' hm
  simp [lcAl] at this

theorem joinH_sub (segs : List (List Char)) (t : List Char)
    (ht : t ≠ []) (hAl : t.all lcAl = true)
    (h : hasSub (joinH segs) t = true) :
    ∃ seg ∈ segs, hasSub seg t = true := by
  induction segs with
  | nil =>
      cases t with
      | nil => exact absurd rfl ht
      | cons a as => simp [joinH, hasSub, prefAt] at h
  | cons s ss ih =>
      cases ss with
      | nil => exact ⟨s, List.mem_singleton_self s, by simpa [joinH] using h⟩
      | cons s' ss' =>
          have hsplit := hasSub_split s (joinH (s' :: ss')) t '-'
            (hyphen_not_mem_of_all_lcAl t hAl) (by simpa [joinH] using h)
          rcases hsplit with h' | h'
          · exact ⟨s, List.mem_cons_self s _, h'⟩
          · rcases ih h' with ⟨seg, hm, hseg⟩
            exact ⟨seg, List.mem_cons_of_mem s hm, hseg⟩

/-- A non-empty alphanumeric token occurring in the normalised form of
a label also occurs in the lower-cased label itself: normalisation only
replaces non-alphanumeric runs by hyphens, and the token cannot span a
hyphen. -/
theorem norm_sub (l t : List Char) (ht : t ≠ [])
    (hAl : t.all lcAl = true) (h : hasSub (normaliseL l) t = true) :
    hasSub (lowerL l) t = true := by
  unfold normaliseL at h
  rcases joinH_sub _ t ht hAl h with ⟨seg, hm, hseg⟩
  rcases segsAux_within (lowerL l) [] seg hm with ⟨pre, post, heq⟩
  exact hasSub_of_within (lowerL l) seg t hseg pre post (by simpa using heq)

/-! ### Store and pattern-matching lemmas -/

theorem mem_addFact {g : Graph} {f a : Triple} :
    a ∈ addFact g f ↔ a ∈ g ∨ a = f := by
  unfold addFact
  by_cases h : f ∈ g
  · simp only [if_pos h]
    exact ⟨Or.inl, fun hc => hc.elim id (fun he => he ▸ h)⟩
  · simp [if_neg h, List.mem_append]

theorem addFact_subset (g : Graph) (f : Triple) : g ⊆ addFact g f :=
  fun _ ha => mem_addFact.2 (Or.inl ha)

theorem mem_addFact_self (g : Graph) (f : Triple) : f ∈ addFact g f :=
  mem_addFact.2 (Or.inr rfl)

theorem addFact_of_not_mem {g : Graph} {f : Triple} (h : f ∉ g) :
    addFact g f = g ++ [f] := by
  unfold addFact
  rw [if_neg h]

theorem not_mem_addFact {g : Graph} {f a : Triple}
    (h1 : a ∉ g) (h2 : a ≠ f) : a ∉ addFact g f := fun hc =>
  (mem_addFact.1 hc).elim h1 h2

theorem mem_objsOf {g : Graph} {s : Node} {p : String} {a : Node} :
    a ∈ objsOf g s p ↔ (⟨s, p, a⟩ : Triple) ∈ g := by
  unfold objsOf
  rw [List.mem_filterMap]
  constructor
  · rintro ⟨f, hf, heq⟩
    by_cases hc : f.subj = s ∧ f.pred = p
    · rw [if_pos hc] at heq
      obtain ⟨rfl⟩ := Option.some.injEq _ _ ▸ heq
      cases f
      cases hc.1; cases hc.2; cases (Option.some.inj heq)
      exact hf
    · rw [if_neg hc] at heq; cases heq
  · intro hm
    exact ⟨⟨s, p, a⟩, hm, by simp⟩

theorem objsOf_eq_nil_of_no_subj {g : Graph} {s : Node} {p : String}
    (h : ∀ f ∈ g, f.subj ≠ s) : objsOf g s p = [] := by
  unfold objsOf
  rw [List.filterMap_eq_nil]
  intro f hf
  rw [if_neg (fun hc => h f hf hc.1)]

theorem mem_strLabelsOf {g : Graph} {u : Node} {l : String} :
    l ∈ strLabelsOf g u ↔ (⟨u, rdfsLabelP, Node.str l⟩ : Triple) ∈ g := by
  unfold strLabelsOf
  rw [List.mem_filterMap]
  constructor
  · rintro ⟨o, ho, heq⟩
    cases o <;> simp_all
    exact mem_objsOf.1 ho
  · intro hm
    exact ⟨Node.str l, mem_objsOf.2 hm, rfl⟩

theorem mem_intObjsOf {g : Graph} {s : Node} {p : String} {n : Int} :
    n ∈ intObjsOf g s p ↔ (⟨s, p, Node.int n⟩ : Triple) ∈ g := by
  unfold intObjsOf
  rw [List.mem_filterMap]
  constructor
  · rintro ⟨o, ho, heq⟩
    cases o <;> simp_all
    exact mem_objsOf.1 ho
  · intro hm
    exact ⟨Node.int n, mem_objsOf.2 hm, rfl⟩

theorem mem_typedRecipes {g : Graph} {r : Node} :
    r ∈ typedRecipes g ↔ (⟨r, rdfTypeP, recipeCls⟩ : Triple) ∈ g := by
  unfold typedRecipes
  rw [List.mem_filterMap]
  constructor
  · rintro ⟨f, hf, heq⟩
    by_cases hc : f.pred = rdfTypeP ∧ f.obj = recipeCls
    · rw [if_pos hc] at heq
      cases f
      cases hc.1; cases hc.2; cases (Option.some.inj heq)
      exact hf
    · rw [if_neg hc] at heq; cases heq
  · intro hm
    exact ⟨⟨r, rdfTypeP, recipeCls⟩, hm, by simp⟩

theorem mem_cuisineLabels {g : Graph} {r : Node} {l : String} :
    l ∈ cuisineLabels g r ↔
      ∃ u, (⟨r, hasCuisineP, u⟩ : Triple) ∈ g ∧
        (⟨u, rdfsLabelP, Node.str l⟩ : Triple) ∈ g := by
  unfold cuisineLabels
  rw [List.mem_flatMap]
  constructor
  · rintro ⟨u, hu, hl⟩
    exact ⟨u, mem_objsOf.1 hu, mem_strLabelsOf.1 hl⟩
  · rintro ⟨u, hu, hl⟩
    exact ⟨u, mem_objsOf.2 hu, mem_strLabelsOf.2 hl⟩

theorem mem_dietLabels {g : Graph} {r : Node} {l : String} :
    l ∈ dietLabels g r ↔
      ∃ u, (⟨r, hasDietP, u⟩ : Triple) ∈ g ∧
        (⟨u, rdfsLabelP, Node.str l⟩ : Triple) ∈ g := by
  unfold dietLabels
  rw [List.mem_flatMap]
  constructor
  · rintro ⟨u, hu, hl⟩
    exact ⟨u, mem_objsOf.1 hu, mem_strLabelsOf.1 hl⟩
  · rintro ⟨u, hu, hl⟩
    exact ⟨u, mem_objsOf.2 hu, mem_strLabelsOf.2 hl⟩

/-! ### Deduplication lemmas -/

theorem mem_specFirstSeenDedup {xs : List String} {a : String} :
    a ∈ specFirstSeenDedup xs → a ∈ xs := by
  suffices h : ∀ (n : Nat) (xs : List String), xs.length = n →
      a ∈ specFirstSeenDedup xs → a ∈ xs from h xs.length xs rfl
  intro n
  induction n using Nat.strong_induction_on with
  | _ n ih =>
      intro xs hn
      cases xs with
      | nil => simp [specFirstSeenDedup]
      | cons x rest =>
          rw [specFirstSeenDedup]
          intro hm
          rcases List.mem_cons.1 hm with rfl | hm'
          · exact List.mem_cons_self _ _
          · have hlen : (rest.filter fun y => decide (y ≠ x)).length < n := by
              subst hn
              simp only [List.length_cons]
              exact Nat.lt_succ_of_le (List.length_filter_le _ _)
            have := ih _ hlen _ rfl hm'
            exact List.mem_cons_of_mem _ (List.mem_of_mem_filter this)

theorem specFirstSeenDedup_nodup (xs : List String) :
    (specFirstSeenDedup xs).Nodup := by
  suffices h : ∀ (n : Nat) (xs : List String), xs.length = n →
      (specFirstSeenDedup xs).Nodup from h xs.length xs rfl
  intro n
  induction n using Nat.strong_induction_on with
  | _ n ih =>
      intro xs hn
      cases xs with
      | nil => simp [specFirstSeenDedup]
      | cons x rest =>
          rw [specFirstSeenDedup]
          have hlen : (rest.filter fun y => decide (y ≠ x)).length < n := by
            subst hn
            simp only [List.length_cons]
            exact Nat.lt_succ_of_le (List.length_filter_le _ _)
          refine List.nodup_cons.2 ⟨fun hx => ?_, ih _ hlen _ rfl⟩
          have := List.of_mem_filter (mem_specFirstSeenDedup hx)
          simp at this

theorem appendDedup_eq_spec (xs acc : List String) :
    appendDedup acc xs =
      acc ++ specFirstSeenDedup (xs.filter fun y => decide (y ∉ acc)) := by
  suffices h : ∀ (n : Nat) (xs acc : List String), xs.length = n →
      appendDedup acc xs =
        acc ++ specFirstSeenDedup (xs.filter fun y => decide (y ∉ acc)) from
    h xs.length xs acc rfl
  intro n
  induction n using Nat.strong_induction_on with
  | _ n ih =>
      intro xs acc hn
      cases xs with
      | nil => simp [appendDedup, specFirstSeenDedup]
      | cons x rest =>
          have hstep : appendDedup acc (x :: rest) =
              appendDedup (if x ∈ acc then acc else acc ++ [x]) rest := by
            simp [appendDedup, List.foldl_cons]
          by_cases hx : x ∈ acc
          · rw [hstep, if_pos hx, ih rest.length (by rw [← hn]; simp) rest acc rfl]
            have : (x :: rest).filter (fun y => decide (y ∉ acc)) =
                rest.filter fun y => decide (y ∉ acc) := by
              simp [List.filter_cons, hx]
            rw [this]
          · rw [hstep, if_neg hx,
              ih rest.length (by rw [← hn]; simp) rest (acc ++ [x]) rfl]
            have h1 : (x :: rest).filter (fun y => decide (y ∉ acc)) =
                x :: rest.filter fun y => decide (y ∉ acc) := by
              simp [List.filter_cons, hx]
            rw [h1, specFirstSeenDedup]
            have h2 : ((rest.filter fun y => decide (y ∉ acc)).filter
                  fun y => decide (y ≠ x)) =
                rest.filter fun y => decide (y ∉ acc ++ [x]) := by
              rw [List.filter_filter]
              refine List.filter_congr fun y _ => ?_
              by_cases hya : y ∈ acc <;> by_cases hyx : y = x <;>
                simp [hya, hyx, List.mem_append]
            rw [h2, List.append_assoc]
            rfl

theorem appendDedup_nil_eq (xs : List String) :
    appendDedup [] xs = specFirstSeenDedup xs := by
  rw [appendDedup_eq_spec]
  simp

theorem appendDedup_nil_nodup (xs : List String) :
    (appendDedup [] xs).Nodup := by
  rw [appendDedup_nil_eq]; exact specFirstSeenDedup_nodup xs

theorem mem_appendDedup_nil {xs : List String} {a : String} :
    a ∈ appendDedup [] xs ↔ a ∈ xs := by
  rw [appendDedup_nil_eq]
  refine ⟨mem_specFirstSeenDedup, ?_⟩
  suffices h : ∀ (n : Nat) (xs : List String), xs.length = n →
      a ∈ xs → a ∈ specFirstSeenDedup xs from h xs.length xs rfl
  intro n
  induction n using Nat.strong_induction_on with
  | _ n ih =>
      intro xs hn
      cases xs with
      | nil => simp
      | cons x rest =>
          intro hm
          rw [specFirstSeenDedup]
          rcases List.mem_cons.1 hm with rfl | hm'
          · exact List.mem_cons_self _ _
          · by_cases hax : a = x
            · exact hax ▸ List.mem_cons_self _ _
            · have hlen : (rest.filter fun y => decide (y ≠ x)).length < n := by
                subst hn
                simp only [List.length_cons]
                exact Nat.lt_succ_of_le (List.length_filter_le _ _)
              refine List.mem_cons_of_mem _ (ih _ hlen _ rfl ?_)
              exact List.mem_filter.2 ⟨hm', by simp [hax]⟩

/-! ### Ordering and grouping lemmas for `search` -/

theorem lexLe_total (x y : List Char) :
    lexLe x y = true ∨ lexLe y x = true := by
  induction x generalizing y with
  | nil => exact Or.inl rfl
  | cons a as ih =>
      cases y with
      | nil => exact Or.inr rfl
      | cons b bs =>
          by_cases hab : a.toNat = b.toNat
          · rcases ih bs with h | h
            · exact Or.inl (by simp [lexLe, hab, h])
            · exact Or.inr (by simp [lexLe, hab.symm, h])
          · rcases Nat.lt_or_ge a.toNat b.toNat with hlt | hge
            · exact Or.inl (by simp [lexLe, hab, hlt])
            · have hgt : b.toNat < a.toNat :=
                lt_of_le_of_ne hge (fun he => hab he.symm)
              refine Or.inr ?_
              simp only [lexLe]
              rw [if_neg (by omega)]
              simp; omega

theorem rowLe_total (a b : Node × String) :
    rowLe a b = true ∨ rowLe b a = true := lexLe_total _ _

theorem mem_insRow {a b : Node × String} {l : List (Node × String)} :
    b ∈ insRow a l ↔ b = a ∨ b ∈ l := by
  induction l with
  | nil => simp [insRow]
  | cons c cs ih =>
      unfold insRow
      by_cases h : rowLe a c = true
      · simp [if_pos h]
      · simp only [if_neg h, List.mem_cons, ih]
        tauto

theorem mem_sortRows {b : Node × String} {l : List (Node × String)} :
    b ∈ sortRows l ↔ b ∈ l := by
  induction l with
  | nil => simp [sortRows]
  | cons c cs ih => simp [sortRows, mem_insRow, ih]

theorem lexLe_trans {x y z : List Char} (h1 : lexLe x y = true)
    (h2 : lexLe y z = true) : lexLe x z = true := by
  induction x generalizing y z with
  | nil => rfl
  | cons a as ih =>
      cases y with
      | nil => simp [lexLe] at h1
      | cons b bs =>
          cases z with
          | nil => simp [lexLe] at h2
          | cons c cs =>
              simp only [lexLe] at h1 h2 ⊢
              by_cases hab : a.toNat = b.toNat <;>
                by_cases hbc : b.toNat = c.toNat
              · rw [if_pos hab] at h1
                rw [if_pos hbc] at h2
                rw [if_pos (hab.trans hbc)]
                exact ih h1 h2
              · rw [if_neg hbc] at h2
                have hlt : b.toNat < c.toNat := by
                  by_contra hge
                  simp [hge] at h2
                rw [if_neg (by omega)]
                simp; omega
              · rw [if_neg hab] at h1
                have hlt : a.toNat < b.toNat := by
                  by_contra hge
                  simp [hge] at h1
                rw [if_neg (by omega)]
                simp; omega
              · rw [if_neg hab] at h1
                rw [if_neg hbc] at h2
                have hlt1 : a.toNat < b.toNat := by
                  by_contra hge
                  simp [hge] at h1
                have hlt2 : b.toNat < c.toNat := by
                  by_contra hge
                  simp [hge] at h2
                rw [if_neg (by omega)]
                simp; omega

theorem rowLe_trans {a b c : Node × String} (h1 : rowLe a b = true)
    (h2 : rowLe b c = true) : rowLe a c = true := lexLe_trans h1 h2

theorem sorted_insRow (a : Node × String) (l : List (Node × String))
    (h : l.Pairwise fun x y => rowLe x y = true) :
    (insRow a l).Pairwise fun x y => rowLe x y = true := by
  induction l with
  | nil => simp [insRow]
  | cons c cs ih =>
      rcases List.pairwise_cons.1 h with ⟨hc, hcs⟩
      unfold insRow
      by_cases hac : rowLe a c = true
      · rw [if_pos hac]
        refine List.pairwise_cons.2 ⟨?_, h⟩
        intro x hx
        rcases List.mem_cons.1 hx with rfl | hx'
        · exact hac
        · exact rowLe_trans hac (hc x hx')
      · rw [if_neg hac]
        refine List.pairwise_cons.2 ⟨?_, ih hcs⟩
        intro x hx
        rcases mem_insRow.1 hx with heq | hx'
        · rw [heq]
          exact (rowLe_total a c).resolve_left hac
        · exact hc x hx'

theorem sorted_sortRows (l : List (Node × String)) :
    (sortRows l).Pairwise fun x y => rowLe x y = true := by
  induction l with
  | nil => simp [sortRows]
  | cons a rest ih => exact sorted_insRow a (sortRows rest) ih

theorem firstByKey_sublist (l : List (Node × String)) (seen : List Node) :
    (firstByKey l seen).Sublist l := by
  induction l generalizing seen with
  | nil => simp [firstByKey]
  | cons rl rest ih =>
      unfold firstByKey
      by_cases h : rl.1 ∈ seen
      · rw [if_pos h]
        exact (ih seen).cons rl
      · rw [if_neg h]
        exact (ih (rl.1 :: seen)).cons₂ rl

theorem firstByKey_keys (l : List (Node × String)) (seen : List Node)
    (r : Node) :
    (∃ p ∈ firstByKey l seen, p.1 = r) ↔
      (∃ p ∈ l, p.1 = r) ∧ r ∉ seen := by
  induction l generalizing seen with
  | nil => simp [firstByKey]
  | cons rl rest ih =>
      unfold firstByKey
      by_cases h : rl.1 ∈ seen
      · rw [if_pos h]
        rw [ih seen]
        constructor
        · rintro ⟨⟨p, hp, hpr⟩, hns⟩
          exact ⟨⟨p, List.mem_cons_of_mem rl hp, hpr⟩, hns⟩
        · rintro ⟨⟨p, hp, hpr⟩, hns⟩
          rcases List.mem_cons.1 hp with heq | hp'
          · exact absurd (hpr ▸ heq ▸ h) hns
          · exact ⟨⟨p, hp', hpr⟩, hns⟩
      · rw [if_neg h]
        constructor
        · intro hex
          rcases hex with ⟨p, hp, hpr⟩
          rcases List.mem_cons.1 hp with heq | hp'
          · have h1 : rl.1 = r := by rw [← heq]; exact hpr
            exact ⟨⟨rl, List.mem_cons_self rl rest, h1⟩, h1 ▸ h⟩
          · rcases (ih (rl.1 :: seen)).1 ⟨p, hp', hpr⟩ with ⟨⟨q, hq, hqr⟩, hns⟩
            exact ⟨⟨q, List.mem_cons_of_mem rl hq, hqr⟩,
              fun hm => hns (List.mem_cons_of_mem _ hm)⟩
        · rintro ⟨⟨p, hp, hpr⟩, hns⟩
          by_cases hr : rl.1 = r
          · exact ⟨rl, List.mem_cons_self rl _, hr⟩
          · rcases List.mem_cons.1 hp with heq | hp'
            · exact absurd (heq ▸ hpr) hr
            · rcases (ih (rl.1 :: seen)).2
                ⟨⟨p, hp', hpr⟩, by
                  intro hm
                  rcases List.mem_cons.1 hm with hm' | hm'
                  · exact hr hm'.symm
                  · exact hns hm'⟩ with ⟨q, hq, hqr⟩
              exact ⟨q, List.mem_cons_of_mem rl hq, hqr⟩

theorem mem_searchRows {g : Graph} {ing cui die : Option String}
    {mt : Option Int} {p : Node × String} :
    p ∈ searchRows g ing cui die mt ↔
      p.1 ∈ typedRecipes g ∧ passes g p.1 ing cui die mt = true ∧
        p.2 ∈ strLabelsOf g p.1 := by
  unfold searchRows
  rw [List.mem_flatMap]
  constructor
  · rintro ⟨r, hr, hp⟩
    by_cases hpass : passes g r ing cui die mt = true
    · rw [if_pos hpass] at hp
      rcases List.mem_map.1 hp with ⟨l, hl, heq⟩
      cases heq
      exact ⟨hr, hpass, hl⟩
    · rw [if_neg hpass] at hp
      cases hp
  · rintro ⟨hr, hpass, hl⟩
    refine ⟨p.1, hr, ?_⟩
    rw [if_pos hpass]
    exact List.mem_map.2 ⟨p.2, hl, rfl⟩

/-- Membership characterisation of the search results: a recipe
appears (as the `uri` of a summary) exactly when it is a typed recipe,
it carries a label, and it satisfies every supplied filter clause. -/
theorem search_mem_iff (g : Graph) (ing cui die : Option String)
    (mt : Option Int) (r : Node) :
    (∃ s_ ∈ search g ing cui die mt, s_.uri = r) ↔
      (r ∈ typedRecipes g ∧ strLabelsOf g r ≠ [] ∧
        passes g r ing cui die mt = true) := by
  unfold search
  constructor
  · rintro ⟨s_, hs, huri⟩
    rcases List.mem_map.1 hs with ⟨rl, hrl, heq⟩
    have h1 : rl.1 = r := by rw [← huri, ← heq]; rfl
    have h2 := (firstByKey_keys _ [] r).1 ⟨rl, hrl, h1⟩
    rcases h2.1 with ⟨q, hq, hqr⟩
    have h3 := mem_searchRows.1 (mem_sortRows.1 hq)
    rw [hqr] at h3
    refine ⟨h3.1, ?_, h3.2.1⟩
    intro hnil
    have := h3.2.2
    rw [hnil] at this
    exact (List.not_mem_nil _) this
  · rintro ⟨hr, hlbl, hpass⟩
    rcases List.exists_mem_of_ne_nil _ hlbl with ⟨l, hl⟩
    have hrow : ((r, l) : Node × String) ∈ searchRows g ing cui die mt :=
      mem_searchRows.2 ⟨hr, hpass, hl⟩
    rcases (firstByKey_keys (sortRows (searchRows g ing cui die mt)) [] r).2
      ⟨⟨(r, l), mem_sortRows.2 hrow, rfl⟩, List.not_mem_nil r⟩ with ⟨q, hq, hqr⟩
    exact ⟨mkSummary g mt q.1 q.2, List.mem_map.2 ⟨q, hq, rfl⟩, hqr⟩

/-- Every returned summary is the assembled summary of its own recipe:
in particular its displayed cuisine and diet lists are the full display
joins of that recipe, independent of the filters. -/
theorem search_shape {g : Graph} {ing cui die : Option String}
    {mt : Option Int} {s_ : RecipeSummary}
    (h : s_ ∈ search g ing cui die mt) :
    s_ = mkSummary g mt s_.uri s_.label := by
  unfold search at h
  rcases List.mem_map.1 h with ⟨rl, _, heq⟩
  rw [← heq]; rfl

/-- The search output is sorted (non-strictly) by lower-cased label. -/
theorem search_sorted (g : Graph) (ing cui die : Option String)
    (mt : Option Int) :
    (search g ing cui die mt).Pairwise fun a b =>
      lexLe (lowerL a.label.data) (lowerL b.label.data) = true := by
  unfold search
  refine List.Pairwise.map _ (fun a b hab => ?_)
    (List.Pairwise.sublist (firstByKey_sublist _ _) (sorted_sortRows _))
  exact hab

/-! ### Builder phase lemmas -/

theorem objsOf_append (g1 g2 : Graph) (s : Node) (p : String) :
    objsOf (g1 ++ g2) s p = objsOf g1 s p ++ objsOf g2 s p :=
  List.filterMap_append _ _ _

theorem objsOf_addFact_ne {g : Graph} {f : Triple} {s : Node} {p : String}
    (hcond : ¬(f.subj = s ∧ f.pred = p)) :
    objsOf (addFact g f) s p = objsOf g s p := by
  unfold addFact
  by_cases hm : f ∈ g
  · rw [if_pos hm]
  · rw [if_neg hm, objsOf_append]
    have : objsOf [f] s p = [] := by
      unfold objsOf
      simp [List.filterMap, if_neg hcond]
    rw [this, List.append_nil]

theorem objsOf_addFact_split (g : Graph) (f : Triple) (s : Node) (p : String) :
    objsOf (addFact g f) s p = objsOf g s p ∨
      objsOf (addFact g f) s p = objsOf g s p ++ [f.obj] := by
  unfold addFact
  by_cases hm : f ∈ g
  · rw [if_pos hm]; exact Or.inl rfl
  · rw [if_neg hm, objsOf_append]
    by_cases hcond : f.subj = s ∧ f.pred = p
    · refine Or.inr ?_
      have : objsOf [f] s p = [f.obj] := by
        unfold objsOf
        simp [List.filterMap, if_pos hcond]
      rw [this]
    · refine Or.inl ?_
      have : objsOf [f] s p = [] := by
        unfold objsOf
        simp [List.filterMap, if_neg hcond]
      rw [this, List.append_nil]

theorem strLabelsOf_addFact_ne {g : Graph} {f : Triple} {u : Node}
    (hcond : ¬(f.subj = u ∧ f.pred = rdfsLabelP)) :
    strLabelsOf (addFact g f) u = strLabelsOf g u := by
  unfold strLabelsOf
  rw [objsOf_addFact_ne hcond]

theorem labelValue_addFact_keep {g : Graph} {f : Triple} {u : Node}
    {l : String} (h : labelValue g u = some l) :
    labelValue (addFact g f) u = some l := by
  unfold labelValue strLabelsOf at h ⊢
  rcases objsOf_addFact_split g f u rdfsLabelP with heq | heq
  · rw [heq]; exact h
  · rw [heq, List.filterMap_append, List.head?_append, h]
    rfl

set_option maxHeartbeats 2000000 in
theorem addScalars_notin {g : Graph} {r : Node} {record : RecipeRecord}
    {f0 : Triple} (h : f0 ∉ g) (hp : f0.pred ∉ scalarPreds) :
    f0 ∉ addScalars g r record := by
  have key : ∀ (t : Triple), t.pred ∈ scalarPreds → f0 ≠ t :=
    fun t hmem heq => hp (heq ▸ hmem)
  unfold addScalars
  cases record.url <;> cases record.rating <;> cases record.prep_time <;>
    cases record.cook_time <;> cases record.total_time <;>
    cases record.servings <;> dsimp only <;>
    (try split) <;>
    (repeat first
      | exact h
      | refine not_mem_addFact ?_ (key _ (by simp [scalarPreds])))

set_option maxHeartbeats 2000000 in
theorem addScalars_objsOf {g : Graph} {r : Node} {record : RecipeRecord}
    {s : Node} {p : String} (hp : p ∉ scalarPreds) :
    objsOf (addScalars g r record) s p = objsOf g s p := by
  unfold addScalars
  cases record.url <;> cases record.rating <;> cases record.prep_time <;>
    cases record.cook_time <;> cases record.total_time <;>
    cases record.servings <;> dsimp only <;>
    (try split) <;>
    (repeat rw [objsOf_addFact_ne
      (fun hc => hp (by rw [← hc.2]; simp [scalarPreds]))]) <;>
    (try rfl)

theorem annotate_subset (g : Graph) (label : String) :
    g ⊆ (annotate_ingredient g label).1 := by
  unfold annotate_ingredient
  by_cases h : (⟨ingredientUriOf label, rdfTypeP, ingredientCls⟩ : Triple) ∈ g
  · rw [if_pos h]; exact fun a ha => ha
  · rw [if_neg h]
    dsimp only
    split <;> split <;>
      exact fun a ha =>
        (by
          repeat first
            | exact ha
            | refine addFact_subset _ _ ?_)

theorem addFact_sub_trans {g h : Graph} (hs : g ⊆ h) (f : Triple) :
    g ⊆ addFact h f := fun a ha => addFact_subset h f (hs ha)

theorem addIngredients_subset (r : Node) :
    ∀ (labels : List String) (g : Graph) (acc : List Node),
      g ⊆ (addIngredients g r labels acc).1 := by
  intro labels
  induction labels with
  | nil => intro g acc; exact fun a ha => ha
  | cons label rest ih =>
      intro g acc
      unfold addIngredients
      intro a ha
      exact ih _ _ (addFact_subset _ _ (annotate_subset g label ha))

theorem infer_subset (g : Graph) (r : Node) (uris : List Node) :
    g ⊆ infer_diets g r uris := by
  unfold infer_diets
  dsimp only
  split <;> (try split) <;>
    intro a ha <;>
    (repeat first
      | exact ha
      | refine addFact_subset _ _ ?_
      | split)

theorem addSteps_subset (r : Node) :
    ∀ (ds : List String) (idx bn : Nat) (g : Graph),
      g ⊆ (addSteps g r ds idx bn).1 := by
  intro ds
  induction ds with
  | nil => intro idx bn g; exact fun a ha => ha
  | cons d rest ih =>
      intro idx bn g
      unfold addSteps
      intro a ha
      refine ih _ _ _ ?_
      repeat refine addFact_subset _ _ ?_
      exact ha

theorem addCuisineChain_subset (r : Node) :
    ∀ (segs : List (List Char)) (g : Graph) (parent : Option Node),
      g ⊆ addCuisineChain g r segs parent := by
  intro segs
  induction segs with
  | nil =>
      intro g parent
      unfold addCuisineChain
      cases parent with
      | none => exact fun a ha => ha
      | some p => exact addFact_subset g _
  | cons seg rest ih =>
      intro g parent
      unfold addCuisineChain
      intro a ha
      refine ih _ _ ?_
      dsimp only
      split
      · split <;>
          (repeat first
            | exact ha
            | refine addFact_subset _ _ ?_)
      · split <;>
          (repeat first
            | exact ha
            | refine addFact_subset _ _ ?_)

theorem addScalars_subset (g : Graph) (r : Node) (record : RecipeRecord) :
    g ⊆ addScalars g r record := by
  intro b hb
  unfold addScalars
  cases record.url <;> cases record.rating <;> cases record.prep_time <;>
    cases record.cook_time <;> cases record.total_time <;>
    cases record.servings <;> dsimp only <;> (try split) <;>
    (repeat first
      | exact hb
      | refine addFact_subset _ _ ?_)

theorem populate_record_subset (g : Graph) (bn : Nat)
    (record : RecipeRecord) : g ⊆ (populate_record g bn record).1 := by
  unfold populate_record
  by_cases hname : record.name = ""
  · rw [if_pos hname]; exact fun a ha => ha
  · rw [if_neg hname]
    dsimp only
    intro a ha
    cases hcp : record.cuisine_path with
    | none =>
        dsimp only
        refine addSteps_subset _ _ _ _ _ ?_
        refine infer_subset _ _ _ ?_
        refine addIngredients_subset _ _ _ _ ?_
        refine addScalars_subset _ _ _ ?_
        exact addFact_subset _ _ (addFact_subset _ _ ha)
    | some p =>
        dsimp only
        by_cases hp : p = ""
        · rw [if_pos hp]
          refine addSteps_subset _ _ _ _ _ ?_
          refine infer_subset _ _ _ ?_
          refine addIngredients_subset _ _ _ _ ?_
          refine addScalars_subset _ _ _ ?_
          exact addFact_subset _ _ (addFact_subset _ _ ha)
        · rw [if_neg hp]
          refine addCuisineChain_subset _ _ _ _ ?_
          refine addSteps_subset _ _ _ _ _ ?_
          refine infer_subset _ _ _ ?_
          refine addIngredients_subset _ _ _ _ ?_
          refine addScalars_subset _ _ _ ?_
          exact addFact_subset _ _ (addFact_subset _ _ ha)

theorem populate_graph_subset :
    ∀ (records : List RecipeRecord) (g : Graph) (bn : Nat),
      g ⊆ (populate_graph g bn records).1 := by
  intro records
  induction records with
  | nil => intro g bn; exact fun a ha => ha
  | cons record rest ih =>
      intro g bn
      unfold populate_graph
      intro a ha
      exact ih _ _ (populate_record_subset g bn record ha)

theorem annotate_notin {g : Graph} {label : String} {f0 : Triple}
    (h : f0 ∉ g) (h1 : f0.pred ≠ rdfTypeP) (h2 : f0.pred ≠ rdfsLabelP) :
    f0 ∉ (annotate_ingredient g label).1 := by
  unfold annotate_ingredient
  by_cases hm : (⟨ingredientUriOf label, rdfTypeP, ingredientCls⟩ : Triple) ∈ g
  · rw [if_pos hm]; exact h
  · rw [if_neg hm]
    dsimp only
    split <;> split <;>
      (repeat first
        | exact h
        | refine not_mem_addFact ?_ (fun heq => by
            first
              | exact h1 (congrArg Triple.pred heq)
              | exact h2 (congrArg Triple.pred heq)))

theorem annotate_objsOf_subj {g : Graph} {label : String} {s : Node}
    {p : String} (hs : ingredientUriOf label ≠ s) :
    objsOf (annotate_ingredient g label).1 s p = objsOf g s p := by
  unfold annotate_ingredient
  by_cases hm : (⟨ingredientUriOf label, rdfTypeP, ingredientCls⟩ : Triple) ∈ g
  · rw [if_pos hm]
  · rw [if_neg hm]
    dsimp only
    split <;> split <;>
      (repeat rw [objsOf_addFact_ne (fun hc => hs hc.1)]) <;> (try rfl)

theorem annotate_objsOf_pred {g : Graph} {label : String} {s : Node}
    {p : String} (h1 : p ≠ rdfTypeP) (h2 : p ≠ rdfsLabelP) :
    objsOf (annotate_ingredient g label).1 s p = objsOf g s p := by
  unfold annotate_ingredient
  by_cases hm : (⟨ingredientUriOf label, rdfTypeP, ingredientCls⟩ : Triple) ∈ g
  · rw [if_pos hm]
  · rw [if_neg hm]
    dsimp only
    split <;> split <;>
      (repeat rw [objsOf_addFact_ne (fun hc => by
        first
          | exact h1 hc.2.symm
          | exact h2 hc.2.symm)]) <;> (try rfl)

theorem addIngredients_notin (r : Node) :
    ∀ (labels : List String) (g : Graph) (acc : List Node) {f0 : Triple},
      f0 ∉ g → f0.pred ≠ rdfTypeP → f0.pred ≠ rdfsLabelP →
      f0.pred ≠ hasIngredientP → f0 ∉ (addIngredients g r labels acc).1 := by
  intro labels
  induction labels with
  | nil => intro g acc f0 h _ _ _; exact h
  | cons label rest ih =>
      intro g acc f0 h h1 h2 h3
      unfold addIngredients
      refine ih _ _ ?_ h1 h2 h3
      refine not_mem_addFact (annotate_notin h h1 h2) (fun heq => h3 (congrArg Triple.pred heq))

theorem addIngredients_objsOf_pred (r : Node) :
    ∀ (labels : List String) (g : Graph) (acc : List Node) {s : Node}
      {p : String}, p ≠ rdfTypeP → p ≠ rdfsLabelP → p ≠ hasIngredientP →
      objsOf (addIngredients g r labels acc).1 s p = objsOf g s p := by
  intro labels
  induction labels with
  | nil => intro g acc s p _ _ _; rfl
  | cons label rest ih =>
      intro g acc s p h1 h2 h3
      unfold addIngredients
      rw [ih _ _ h1 h2 h3, objsOf_addFact_ne (fun hc => h3 hc.2.symm),
        annotate_objsOf_pred h1 h2]

theorem infer_notin {g : Graph} {r : Node} {uris : List Node} {f0 : Triple}
    (h : f0 ∉ g) (h1 : f0.pred ≠ hasDietP) (h2 : f0.pred ≠ avoidsCategoryP) :
    f0 ∉ infer_diets g r uris := by
  unfold infer_diets
  dsimp only
  split <;> (try split) <;>
    (repeat first
      | exact h
      | split
      | refine not_mem_addFact ?_ (fun heq => by
          first
            | exact h1 (congrArg Triple.pred heq)
            | exact h2 (congrArg Triple.pred heq)))

theorem infer_objsOf_pred {g : Graph} {r : Node} {uris : List Node}
    {s : Node} {p : String} (h1 : p ≠ hasDietP) (h2 : p ≠ avoidsCategoryP) :
    objsOf (infer_diets g r uris) s p = objsOf g s p := by
  unfold infer_diets
  dsimp only
  split <;> (try split) <;> (try split) <;> (try split) <;> (try split) <;>
    (repeat rw [objsOf_addFact_ne (fun hc => by
      first
        | exact h1 hc.2.symm
        | exact h2 hc.2.symm)]) <;> (try rfl)

theorem addSteps_notin (r : Node) :
    ∀ (ds : List String) (idx bn : Nat) (g : Graph) {f0 : Triple},
      f0 ∉ g → f0.pred ≠ rdfTypeP → f0.pred ≠ rdfsLabelP →
      f0.pred ≠ schemaPositionP → f0.pred ≠ schemaStepP →
      f0 ∉ (addSteps g r ds idx bn).1 := by
  intro ds
  induction ds with
  | nil => intro idx bn g f0 h _ _ _ _; exact h
  | cons d rest ih =>
      intro idx bn g f0 h h1 h2 h3 h4
      unfold addSteps
      refine ih _ _ _ ?_ h1 h2 h3 h4
      repeat
        refine not_mem_addFact ?_ (fun heq => by
          first
            | exact h1 (congrArg Triple.pred heq)
            | exact h2 (congrArg Triple.pred heq)
            | exact h3 (congrArg Triple.pred heq)
            | exact h4 (congrArg Triple.pred heq))
      exact h

theorem addSteps_objsOf_pred (r : Node) :
    ∀ (ds : List String) (idx bn : Nat) (g : Graph) {s : Node} {p : String},
      p ≠ rdfTypeP → p ≠ rdfsLabelP → p ≠ schemaPositionP →
      p ≠ schemaStepP →
      objsOf (addSteps g r ds idx bn).1 s p = objsOf g s p := by
  intro ds
  induction ds with
  | nil => intro idx bn g s p _ _ _ _; rfl
  | cons d rest ih =>
      intro idx bn g s p h1 h2 h3 h4
      unfold addSteps
      rw [ih _ _ _ h1 h2 h3 h4]
      repeat rw [objsOf_addFact_ne (fun hc => by
        first
          | exact h1 hc.2.symm
          | exact h2 hc.2.symm
          | exact h3 hc.2.symm
          | exact h4 hc.2.symm)]

theorem addCuisineChain_notin (r : Node) :
    ∀ (segs : List (List Char)) (g : Graph) (parent : Option Node)
      {f0 : Triple},
      f0 ∉ g → f0.pred ≠ rdfTypeP → f0.pred ≠ rdfsLabelP →
      f0.pred ≠ subClassOfP → f0.pred ≠ hasCuisineP →
      f0 ∉ addCuisineChain g r segs parent := by
  intro segs
  induction segs with
  | nil =>
      intro g parent f0 h h1 h2 h3 h4
      unfold addCuisineChain
      cases parent with
      | none => exact h
      | some pn =>
          exact not_mem_addFact h (fun heq => h4 (congrArg Triple.pred heq))
  | cons seg rest ih =>
      intro g parent f0 h h1 h2 h3 h4
      unfold addCuisineChain
      refine ih _ _ ?_ h1 h2 h3 h4
      dsimp only
      split <;> split <;>
        (repeat first
          | exact h
          | refine not_mem_addFact ?_ (fun heq => by
              first
                | exact h1 (congrArg Triple.pred heq)
                | exact h2 (congrArg Triple.pred heq)
                | exact h3 (congrArg Triple.pred heq)))

/-! ### Built graphs: every recipe entity carries a label -/

theorem typeRecipe_notin_annotate {g : Graph} {label : String} {r0 : Node}
    (h : (⟨r0, rdfTypeP, recipeCls⟩ : Triple) ∉ g) :
    (⟨r0, rdfTypeP, recipeCls⟩ : Triple) ∉ (annotate_ingredient g label).1 := by
  unfold annotate_ingredient
  by_cases hm : (⟨ingredientUriOf label, rdfTypeP, ingredientCls⟩ : Triple) ∈ g
  · rw [if_pos hm]; exact h
  · rw [if_neg hm]
    dsimp only
    split <;> split <;>
      (repeat first
        | exact h
        | refine not_mem_addFact ?_ (fun heq => by
            first
              | exact (by decide : recipeCls ≠ ingredientCls)
                  (congrArg Triple.obj heq)
              | exact (by decide : recipeCls ≠ animalCls)
                  (congrArg Triple.obj heq)
              | exact (by decide : recipeCls ≠ glutenCls)
                  (congrArg Triple.obj heq)
              | exact (fun hx => by simp [recipeCls] at hx)
                  (congrArg Triple.obj heq)))

theorem typeRecipe_notin_addIngredients (r : Node) :
    ∀ (labels : List String) (g : Graph) (acc : List Node) {r0 : Node},
      (⟨r0, rdfTypeP, recipeCls⟩ : Triple) ∉ g →
      (⟨r0, rdfTypeP, recipeCls⟩ : Triple) ∉ (addIngredients g r labels acc).1 := by
  intro labels
  induction labels with
  | nil => intro g acc r0 h; exact h
  | cons label rest ih =>
      intro g acc r0 h
      unfold addIngredients
      refine ih _ _ ?_
      refine not_mem_addFact (typeRecipe_notin_annotate h) (fun heq => ?_)
      exact (by decide : rdfTypeP ≠ hasIngredientP) (congrArg Triple.pred heq)

theorem typeRecipe_notin_addSteps (r : Node) :
    ∀ (ds : List String) (idx bn : Nat) (g : Graph) {r0 : Node},
      (⟨r0, rdfTypeP, recipeCls⟩ : Triple) ∉ g →
      (⟨r0, rdfTypeP, recipeCls⟩ : Triple) ∉ (addSteps g r ds idx bn).1 := by
  intro ds
  induction ds with
  | nil => intro idx bn g r0 h; exact h
  | cons d rest ih =>
      intro idx bn g r0 h
      unfold addSteps
      refine ih _ _ _ ?_
      repeat
        refine not_mem_addFact ?_ (fun heq => by
          first
            | exact (by decide : recipeCls ≠ howToStepCls)
                (congrArg Triple.obj heq)
            | exact (fun hx => by simp [recipeCls] at hx)
                (congrArg Triple.obj heq))
      exact h

theorem typeRecipe_notin_addChain (r : Node) :
    ∀ (segs : List (List Char)) (g : Graph) (parent : Option Node)
      {r0 : Node},
      (⟨r0, rdfTypeP, recipeCls⟩ : Triple) ∉ g →
      (⟨r0, rdfTypeP, recipeCls⟩ : Triple) ∉ addCuisineChain g r segs parent := by
  intro segs
  induction segs with
  | nil =>
      intro g parent r0 h
      unfold addCuisineChain
      cases parent with
      | none => exact h
      | some pn =>
          exact not_mem_addFact h (fun heq =>
            (by decide : rdfTypeP ≠ hasCuisineP) (congrArg Triple.pred heq))
  | cons seg rest ih =>
      intro g parent r0 h
      unfold addCuisineChain
      refine ih _ _ ?_
      dsimp only
      split <;> split <;>
        (repeat first
          | exact h
          | refine not_mem_addFact ?_ (fun heq => by
              first
                | exact (by decide : recipeCls ≠ cuisineCls)
                    (congrArg Triple.obj heq)
                | exact (by decide : rdfTypeP ≠ subClassOfP)
                    (congrArg Triple.pred heq)
                | exact (fun hx => by simp [recipeCls] at hx)
                    (congrArg Triple.obj heq)))

theorem strLabelsOf_ne_nil_mono {g g' : Graph} {r : Node} (hsub : g ⊆ g')
    (h : strLabelsOf g r ≠ []) : strLabelsOf g' r ≠ [] := by
  rcases List.exists_mem_of_ne_nil _ h with ⟨l, hl⟩
  have : l ∈ strLabelsOf g' r := mem_strLabelsOf.2 (hsub (mem_strLabelsOf.1 hl))
  exact fun hnil => by rw [hnil] at this; exact (List.not_mem_nil _) this

theorem populate_record_keeps_labeled {g : Graph} {bn : Nat}
    {record : RecipeRecord} (h : recipesLabeled g) :
    recipesLabeled (populate_record g bn record).1 := by
  by_cases hname : record.name = ""
  · unfold populate_record
    rw [if_pos hname]
    exact h
  · intro r hr
    have hf0 := mem_typedRecipes.1 hr
    by_cases hru : r = recipeUriOf record.name
    · subst hru
      have hlab : (⟨recipeUriOf record.name, rdfsLabelP,
          Node.str record.name⟩ : Triple) ∈ (populate_record g bn record).1 := by
        unfold populate_record
        rw [if_neg hname]
        dsimp only
        cases hcp : record.cuisine_path with
        | none =>
            dsimp only
            refine addSteps_subset _ _ _ _ _ ?_
            refine infer_subset _ _ _ ?_
            refine addIngredients_subset _ _ _ _ ?_
            refine addScalars_subset _ _ _ ?_
            exact mem_addFact_self _ _
        | some p =>
            dsimp only
            by_cases hp : p = ""
            · rw [if_pos hp]
              refine addSteps_subset _ _ _ _ _ ?_
              refine infer_subset _ _ _ ?_
              refine addIngredients_subset _ _ _ _ ?_
              refine addScalars_subset _ _ _ ?_
              exact mem_addFact_self _ _
            · rw [if_neg hp]
              refine addCuisineChain_subset _ _ _ _ ?_
              refine addSteps_subset _ _ _ _ _ ?_
              refine infer_subset _ _ _ ?_
              refine addIngredients_subset _ _ _ _ ?_
              refine addScalars_subset _ _ _ ?_
              exact mem_addFact_self _ _
      have : record.name ∈ strLabelsOf (populate_record g bn record).1
          (recipeUriOf record.name) := mem_strLabelsOf.2 hlab
      exact fun hnil => by rw [hnil] at this; exact (List.not_mem_nil _) this
    · have hf0g : (⟨r, rdfTypeP, recipeCls⟩ : Triple) ∈ g := by
        by_contra hng
        apply absurd hf0
        unfold populate_record
        rw [if_neg hname]
        dsimp only
        have hsp : rdfTypeP ∉ scalarPreds := by decide
        have hd1 : rdfTypeP ≠ hasDietP := by decide
        have hd2 : rdfTypeP ≠ avoidsCategoryP := by decide
        have hbase : (⟨r, rdfTypeP, recipeCls⟩ : Triple) ∉
            addFact (addFact g ⟨recipeUriOf record.name, rdfTypeP, recipeCls⟩)
              ⟨recipeUriOf record.name, rdfsLabelP, Node.str record.name⟩ := by
          refine not_mem_addFact (not_mem_addFact hng
            (fun heq => hru (congrArg Triple.subj heq))) (fun heq => ?_)
          exact (by decide : rdfTypeP ≠ rdfsLabelP) (congrArg Triple.pred heq)
        cases hcp : record.cuisine_path with
        | none =>
            dsimp only
            refine typeRecipe_notin_addSteps _ _ _ _ _ ?_
            refine infer_notin ?_ hd1 hd2
            refine typeRecipe_notin_addIngredients _ _ _ _ ?_
            exact addScalars_notin hbase hsp
        | some p =>
            dsimp only
            by_cases hp : p = ""
            · rw [if_pos hp]
              refine typeRecipe_notin_addSteps _ _ _ _ _ ?_
              refine infer_notin ?_ hd1 hd2
              refine typeRecipe_notin_addIngredients _ _ _ _ ?_
              exact addScalars_notin hbase hsp
            · rw [if_neg hp]
              refine typeRecipe_notin_addChain _ _ _ _ ?_
              refine typeRecipe_notin_addSteps _ _ _ _ _ ?_
              refine infer_notin ?_ hd1 hd2
              refine typeRecipe_notin_addIngredients _ _ _ _ ?_
              exact addScalars_notin hbase hsp
      exact strLabelsOf_ne_nil_mono (populate_record_subset g bn record)
        (h r (mem_typedRecipes.2 hf0g))

theorem populate_graph_keeps_labeled :
    ∀ (records : List RecipeRecord) (g : Graph) (bn : Nat),
      recipesLabeled g → recipesLabeled (populate_graph g bn records).1 := by
  intro records
  induction records with
  | nil => intro g bn h; exact h
  | cons record rest ih =>
      intro g bn h
      unfold populate_graph
      exact ih _ _ (populate_record_keeps_labeled h)

theorem build_graph_labeled (records : List RecipeRecord) :
    recipesLabeled (build_graph records) := by
  unfold build_graph
  refine populate_graph_keeps_labeled records _ 0 ?_
  intro r hr
  have : typedRecipes (add_ontology_schema []) = [] := by decide
  rw [this] at hr
  exact absurd hr (List.not_mem_nil r)

/-! ### Unfolding the filter clauses -/

theorem ingredientOk_some_iff {g : Graph} {r : Node} {s : String}
    (hs : s ≠ "") :
    ingredientOk g r (some s) = true ↔
      ∃ i, (⟨r, hasIngredientP, i⟩ : Triple) ∈ g ∧
        ∃ l, (⟨i, rdfsLabelP, Node.str l⟩ : Triple) ∈ g ∧
          hasSub (lowerL l.data) (lowerL s.data) = true := by
  simp only [ingredientOk]
  rw [if_neg hs, List.any_eq_true]
  constructor
  · rintro ⟨i, hi, hl⟩
    rcases List.any_eq_true.1 hl with ⟨l, hlm, hsub⟩
    exact ⟨i, mem_objsOf.1 hi, l, mem_strLabelsOf.1 hlm, hsub⟩
  · rintro ⟨i, hi, l, hl, hsub⟩
    exact ⟨i, mem_objsOf.2 hi, List.any_eq_true.2
      ⟨l, mem_strLabelsOf.2 hl, hsub⟩⟩

theorem cuisineOk_some_iff {g : Graph} {r : Node} {s : String}
    (hs : s ≠ "") :
    cuisineOk g r (some s) = true ↔
      ∃ u, (⟨r, hasCuisineP, u⟩ : Triple) ∈ g ∧
        ∃ l, (⟨u, rdfsLabelP, Node.str l⟩ : Triple) ∈ g ∧
          lowerL l.data = lowerL s.data := by
  simp only [cuisineOk]
  rw [if_neg hs, List.any_eq_true]
  constructor
  · rintro ⟨u, hu, hl⟩
    rcases List.any_eq_true.1 hl with ⟨l, hlm, heq⟩
    exact ⟨u, mem_objsOf.1 hu, l, mem_strLabelsOf.1 hlm,
      by simpa using heq⟩
  · rintro ⟨u, hu, l, hl, heq⟩
    exact ⟨u, mem_objsOf.2 hu, List.any_eq_true.2
      ⟨l, mem_strLabelsOf.2 hl, by simpa using heq⟩⟩

theorem dietOk_some_iff {g : Graph} {r : Node} {s : String}
    (hs : s ≠ "") :
    dietOk g r (some s) = true ↔
      ∃ u, (⟨r, hasDietP, u⟩ : Triple) ∈ g ∧
        ∃ l, (⟨u, rdfsLabelP, Node.str l⟩ : Triple) ∈ g ∧
          lowerL l.data = lowerL s.data := by
  simp only [dietOk]
  rw [if_neg hs, List.any_eq_true]
  constructor
  · rintro ⟨u, hu, hl⟩
    rcases List.any_eq_true.1 hl with ⟨l, hlm, heq⟩
    exact ⟨u, mem_objsOf.1 hu, l, mem_strLabelsOf.1 hlm,
      by simpa using heq⟩
  · rintro ⟨u, hu, l, hl, heq⟩
    exact ⟨u, mem_objsOf.2 hu, List.any_eq_true.2
      ⟨l, mem_strLabelsOf.2 hl, by simpa using heq⟩⟩

theorem timeOk_some_iff {g : Graph} {r : Node} {t : Int} :
    timeOk g r (some t) = true ↔
      ∃ v : Int, (⟨r, hasTotalTimeP, Node.int v⟩ : Triple) ∈ g ∧ v ≤ t := by
  simp only [timeOk]
  rw [List.any_eq_true]
  constructor
  · rintro ⟨v, hv, hle⟩
    exact ⟨v, mem_intObjsOf.1 hv, by simpa using hle⟩
  · rintro ⟨v, hv, hle⟩
    exact ⟨v, mem_intObjsOf.2 hv, by simpa using hle⟩

theorem passes_decomp (g : Graph) (r : Node) (ing cui die : Option String)
    (mt : Option Int) :
    passes g r ing cui die mt = true ↔
      (ingredientOk g r ing = true ∧ cuisineOk g r cui = true ∧
        dietOk g r die = true ∧ timeOk g r mt = true) := by
  unfold passes
  simp [Bool.and_eq_true, and_assoc]

theorem ok_none_all (g : Graph) (r : Node) :
    ingredientOk g r Option.none = true ∧ cuisineOk g r Option.none = true ∧
      dietOk g r Option.none = true ∧ timeOk g r Option.none = true :=
  ⟨rfl, rfl, rfl, rfl⟩

/-! ### Witness material: concrete records and stores -/

/-- C8: for every store and filter combination, the sequence returned
by `search` is ordered ascending by case-insensitive recipe label, and
repeated calls with the same arguments against the same immutable store
return identical sequences (the embedding of the query pipeline is a
pure function of the store and the arguments, so tie-break order among
equal labels is reproduced exactly). -/
theorem claim_C8_search_ordered (g : Graph) (ing cui die : Option String)
    (mt : Option Int) :
    (search g ing cui die mt).Pairwise
      (fun a b => lexLe (lowerL a.label.data) (lowerL b.label.data) = true) ∧
    search g ing cui die mt = search g ing cui die mt :=
  ⟨search_sorted g ing cui die mt, rfl⟩

/-! ### Claim C5 -/

/-- C5: with a total-time bound, every recipe with no integer
total-time attribute is excluded (an absent attribute never satisfies
the bound); multiple filters are conjunctive — membership under a
filter combination is exactly the conjunction of membership under each
filter alone; and with all filters absent every labelled recipe is
returned, so an absent filter argument imposes no constraint. -/
theorem claim_C5_time_filter_and_conjunctivity (g : Graph) (t : Int)
    (hwf : recipesLabeled g) :
    (∀ r : Node, intObjsOf g r hasTotalTimeP = [] →
      ∀ s_ ∈ search g Option.none Option.none Option.none (some t),
        s_.uri ≠ r) ∧
    (∀ (ing cui die : Option String) (mt : Option Int) (r : Node),
      (∃ s_ ∈ search g ing cui die mt, s_.uri = r) ↔
        ((∃ s_ ∈ search g ing Option.none Option.none Option.none,
            s_.uri = r) ∧
         (∃ s_ ∈ search g Option.none cui Option.none Option.none,
            s_.uri = r) ∧
         (∃ s_ ∈ search g Option.none Option.none die Option.none,
            s_.uri = r) ∧
         (∃ s_ ∈ search g Option.none Option.none Option.none mt,
            s_.uri = r))) ∧
    (∀ r : Node,
      (∃ s_ ∈ search g Option.none Option.none Option.none Option.none,
        s_.uri = r) ↔ r ∈ typedRecipes g) := by
  refine ⟨?_, ?_, ?_⟩
  · intro r hnil s_ hs heq
    have hmem := (search_mem_iff g Option.none Option.none Option.none
      (some t) r).1 ⟨s_, hs, heq⟩
    have htime := ((passes_decomp _ _ _ _ _ _).1 hmem.2.2).2.2.2
    rcases timeOk_some_iff.1 htime with ⟨v, hv, _⟩
    have : v ∈ intObjsOf g r hasTotalTimeP := mem_intObjsOf.2 hv
    rw [hnil] at this
    exact (List.not_mem_nil _) this
  · intro ing cui die mt r
    rw [search_mem_iff, search_mem_iff, search_mem_iff, search_mem_iff,
      search_mem_iff]
    simp only [passes_decomp]
    have hnone := ok_none_all g r
    constructor
    · rintro ⟨h1, h2, h3⟩
      exact ⟨⟨h1, h2, h3.1, hnone.2.1, hnone.2.2.1, hnone.2.2.2⟩,
        ⟨h1, h2, hnone.1, h3.2.1, hnone.2.2.1, hnone.2.2.2⟩,
        ⟨h1, h2, hnone.1, hnone.2.1, h3.2.2.1, hnone.2.2.2⟩,
        ⟨h1, h2, hnone.1, hnone.2.1, hnone.2.2.1, h3.2.2.2⟩⟩
    · rintro ⟨⟨h1, h2, hi, -, -, -⟩, ⟨-, -, -, hc, -, -⟩,
        ⟨-, -, -, -, hd, -⟩, ⟨-, -, -, -, -, ht⟩⟩
      exact ⟨h1, h2, hi, hc, hd, ht⟩
  · intro r
    rw [search_mem_iff]
    constructor
    · rintro ⟨h1, -, -⟩
      exact h1
    · intro h1
      exact ⟨h1, hwf r h1, (passes_decomp _ _ _ _ _ _).2
        ⟨rfl, rfl, rfl, rfl⟩⟩

set_option maxRecDepth 1000000 in
/-- Witness for C5 at a concrete store: the Tea recipe has no
total-time attribute and is indeed excluded from a bounded search,
while Lentil Soup (total time 45) is retained. -/
theorem claim_C5_witness :
    recipesLabeled gLentil ∧
    ((∀ r : Node, intObjsOf gLentil r hasTotalTimeP = [] →
      ∀ s_ ∈ search gLentil Option.none Option.none Option.none (some 60),
        s_.uri ≠ r) ∧
    (∀ (ing cui die : Option String) (mt : Option Int) (r : Node),
      (∃ s_ ∈ search gLentil ing cui die mt, s_.uri = r) ↔
        ((∃ s_ ∈ search gLentil ing Option.none Option.none Option.none,
            s_.uri = r) ∧
         (∃ s_ ∈ search gLentil Option.none cui Option.none Option.none,
            s_.uri = r) ∧
         (∃ s_ ∈ search gLentil Option.none Option.none die Option.none,
            s_.uri = r) ∧
         (∃ s_ ∈ search gLentil Option.none Option.none Option.none mt,
            s_.uri = r))) ∧
    (∀ r : Node,
      (∃ s_ ∈ search gLentil Option.none Option.none Option.none
        Option.none, s_.uri = r) ↔ r ∈ typedRecipes gLentil)) :=
  ⟨(by decide : ∀ r ∈ typedRecipes gLentil, strLabelsOf gLentil r ≠ []),
    claim_C5_time_filter_and_conjunctivity gLentil 60
      (by decide : ∀ r ∈ typedRecipes gLentil, strLabelsOf gLentil r ≠ [])⟩

/-! ### Claim C1 -/

/-- C1 (amended to non-empty filter strings): for every store and every
non-empty ingredient filter string `s`, `search` returns exactly the
recipes having at least one ingredient whose label contains `s`
case-insensitively, and excludes all recipes that have none.  (For
`s = ""` the source's truthiness test `if ingredient:` disables the
clause entirely — see the counterexample.) -/
theorem claim_C1_ingredient_filter (g : Graph) (s : String)
    (hwf : recipesLabeled g) (hs : s ≠ "") (r : Node) :
    (∃ s_ ∈ search g (some s) Option.none Option.none Option.none,
      s_.uri = r) ↔
      (r ∈ typedRecipes g ∧
        ∃ i, (⟨r, hasIngredientP, i⟩ : Triple) ∈ g ∧
          ∃ l, (⟨i, rdfsLabelP, Node.str l⟩ : Triple) ∈ g ∧
            hasSub (lowerL l.data) (lowerL s.data) = true) := by
  rw [search_mem_iff]
  constructor
  · rintro ⟨h1, -, hp⟩
    have := ((passes_decomp _ _ _ _ _ _).1 hp).1
    exact ⟨h1, (ingredientOk_some_iff hs).1 this⟩
  · rintro ⟨h1, hing⟩
    exact ⟨h1, hwf r h1, (passes_decomp _ _ _ _ _ _).2
      ⟨(ingredientOk_some_iff hs).2 hing, rfl, rfl, rfl⟩⟩

set_option maxRecDepth 1000000 in
/-- Counterexample to C1 as frozen: with the empty filter string, the
code skips the ingredient clause (`if ingredient:`), so the Tea recipe
— which has no ingredient at all, hence none whose label contains the
filter text — is still returned. -/
theorem claim_C1_counterexample :
    (∃ s_ ∈ search gLentil (some "") Option.none Option.none Option.none,
      s_.uri = teaUri) ∧
    objsOf gLentil teaUri hasIngredientP = [] := by
  constructor
  · decide
  · decide

set_option maxRecDepth 1000000 in
/-- Witness for C1 on a concrete store: filtering for "lentil" returns
exactly Lentil Soup (which has the ingredient "Lentils") and the
membership characterisation holds there. -/
theorem claim_C1_witness :
    (∀ r ∈ typedRecipes gLentil, strLabelsOf gLentil r ≠ []) ∧
    ("lentil" ≠ "") ∧
    ((∃ s_ ∈ search gLentil (some "lentil") Option.none Option.none
        Option.none, s_.uri = lentilUri) ↔
      (lentilUri ∈ typedRecipes gLentil ∧
        ∃ i, (⟨lentilUri, hasIngredientP, i⟩ : Triple) ∈ gLentil ∧
          ∃ l, (⟨i, rdfsLabelP, Node.str l⟩ : Triple) ∈ gLentil ∧
            hasSub (lowerL l.data) (lowerL "lentil".data) = true)) :=
  ⟨by decide, by decide,
    claim_C1_ingredient_filter gLentil "lentil"
      (by decide : ∀ r ∈ typedRecipes gLentil, strLabelsOf gLentil r ≠ [])
      (by decide) lentilUri⟩

/-! ### Claim C2 -/

/-- C2 (amended to non-empty filter values): the cuisine filter keeps
exactly the recipes having a cuisine association whose label equals the
filter case-insensitively, while the displayed cuisine list of every
returned summary still contains precisely the labels of all cuisine
associations of that recipe (filter join and display join are
independent); the diet filter and the diets list behave the same way.
(For the empty filter value the clause is skipped — see the
counterexample.) -/
theorem claim_C2_filter_display_independent (g : Graph)
    (hwf : recipesLabeled g) :
    (∀ c : String, c ≠ "" → ∀ r : Node,
      (∃ s_ ∈ search g Option.none (some c) Option.none Option.none,
        s_.uri = r) ↔
        (r ∈ typedRecipes g ∧
          ∃ u, (⟨r, hasCuisineP, u⟩ : Triple) ∈ g ∧
            ∃ l, (⟨u, rdfsLabelP, Node.str l⟩ : Triple) ∈ g ∧
              lowerL l.data = lowerL c.data)) ∧
    (∀ (c : Option String),
      ∀ s_ ∈ search g Option.none c Option.none Option.none,
        ∀ l : String, l ∈ s_.cuisines ↔ l ∈ cuisineLabels g s_.uri) ∧
    (∀ d : String, d ≠ "" → ∀ r : Node,
      (∃ s_ ∈ search g Option.none Option.none (some d) Option.none,
        s_.uri = r) ↔
        (r ∈ typedRecipes g ∧
          ∃ u, (⟨r, hasDietP, u⟩ : Triple) ∈ g ∧
            ∃ l, (⟨u, rdfsLabelP, Node.str l⟩ : Triple) ∈ g ∧
              lowerL l.data = lowerL d.data)) ∧
    (∀ (d : Option String),
      ∀ s_ ∈ search g Option.none Option.none d Option.none,
        ∀ l : String, l ∈ s_.diets ↔ l ∈ dietLabels g s_.uri) := by
  refine ⟨?_, ?_, ?_, ?_⟩
  · intro c hc r
    rw [search_mem_iff]
    constructor
    · rintro ⟨h1, -, hp⟩
      have := ((passes_decomp _ _ _ _ _ _).1 hp).2.1
      exact ⟨h1, (cuisineOk_some_iff hc).1 this⟩
    · rintro ⟨h1, hcu⟩
      exact ⟨h1, hwf r h1, (passes_decomp _ _ _ _ _ _).2
        ⟨rfl, (cuisineOk_some_iff hc).2 hcu, rfl, rfl⟩⟩
  · intro c s_ hs l
    rw [search_shape hs]
    exact mem_appendDedup_nil
  · intro d hd r
    rw [search_mem_iff]
    constructor
    · rintro ⟨h1, -, hp⟩
      have := ((passes_decomp _ _ _ _ _ _).1 hp).2.2.1
      exact ⟨h1, (dietOk_some_iff hd).1 this⟩
    · rintro ⟨h1, hdi⟩
      exact ⟨h1, hwf r h1, (passes_decomp _ _ _ _ _ _).2
        ⟨rfl, rfl, (dietOk_some_iff hd).2 hdi, rfl⟩⟩
  · intro d s_ hs l
    rw [search_shape hs]
    exact mem_appendDedup_nil

set_option maxRecDepth 1000000 in
/-- Counterexample to C2 as frozen: with the empty cuisine filter
value, the code skips the cuisine clause (`if cuisine:`), so the Tea
recipe — which has no cuisine association at all, hence none whose
label equals the filter value — is still returned. -/
theorem claim_C2_counterexample :
    (∃ s_ ∈ search gLentil Option.none (some "") Option.none Option.none,
      s_.uri = teaUri) ∧
    objsOf gLentil teaUri hasCuisineP = [] := by
  constructor
  · decide
  · decide

set_option maxRecDepth 1000000 in
/-- Witness for C2 on a concrete store: filtering by cuisine "indian"
(case-insensitive) keeps Lentil Soup, and the displayed cuisine list of
each returned summary coincides with its display join. -/
theorem claim_C2_witness :
    (∀ r ∈ typedRecipes gLentil, strLabelsOf gLentil r ≠ []) ∧
    ((∃ s_ ∈ search gLentil Option.none (some "indian") Option.none
        Option.none, s_.uri = lentilUri) ↔
      (lentilUri ∈ typedRecipes gLentil ∧
        ∃ u, (⟨lentilUri, hasCuisineP, u⟩ : Triple) ∈ gLentil ∧
          ∃ l, (⟨u, rdfsLabelP, Node.str l⟩ : Triple) ∈ gLentil ∧
            lowerL l.data = lowerL "indian".data)) :=
  ⟨by decide,
    (claim_C2_filter_display_independent gLentil
      (by decide : ∀ r ∈ typedRecipes gLentil,
        strLabelsOf gLentil r ≠ [])).1 "indian" (by decide) lentilUri⟩

/-! ### Claim C4 -/

/-- C4: for every store and every identifier, if the store holds no
facts whose subject is that identifier then `recipe_detail` returns
`none` — a distinguishable "not found" result.  The lookup is a total
function of the unchanged store (the embedding takes the store by value
and performs no mutation), so no exception or error can be raised. -/
theorem claim_C4_detail_not_found (g : Graph) (r : Node)
    (h : ∀ f ∈ g, f.subj ≠ r) : recipe_detail g r = Option.none := by
  unfold recipe_detail
  have : strLabelsOf g r = [] := by
    unfold strLabelsOf
    rw [objsOf_eq_nil_of_no_subj h]
    rfl
  rw [this]

set_option maxRecDepth 1000000 in
/-- Witness for C4: a concrete store holds no facts about an unknown
recipe identifier and the lookup returns `none` there. -/
theorem claim_C4_witness :
    (∀ f ∈ gLentil, f.subj ≠ recipeUriOf "Borscht") ∧
    recipe_detail gLentil (recipeUriOf "Borscht") = Option.none :=
  ⟨by decide,
    claim_C4_detail_not_found gLentil (recipeUriOf "Borscht") (by decide)⟩

/-! ### Claim C9 -/

/-- C9: whenever `recipe_detail` returns a record, each of its four
multi-valued lists (ingredients, directions, diets, cuisines) is the
first-seen deduplication of the corresponding join sequence — every
value is kept at its first occurrence, later repetitions are dropped —
and in particular each list contains no duplicate values. -/
theorem claim_C9_detail_dedup (g : Graph) (r : Node) (d : RecipeDetail)
    (h : recipe_detail g r = some d) :
    (d.ingredients = specFirstSeenDedup (ingredientLabels g r) ∧
      d.ingredients.Nodup) ∧
    (d.directions = specFirstSeenDedup (stepLabels g r) ∧
      d.directions.Nodup) ∧
    (d.diets = specFirstSeenDedup (dietLabels g r) ∧ d.diets.Nodup) ∧
    (d.cuisines = specFirstSeenDedup (cuisineLabels g r) ∧
      d.cuisines.Nodup) := by
  unfold recipe_detail at h
  cases hl : strLabelsOf g r with
  | nil => rw [hl] at h; cases h
  | cons lbl rest =>
      rw [hl] at h
      cases (Option.some.inj h)
      refine ⟨⟨?_, ?_⟩, ⟨?_, ?_⟩, ⟨?_, ?_⟩, ⟨?_, ?_⟩⟩ <;>
        first
          | exact appendDedup_nil_eq _
          | exact appendDedup_nil_nodup _

set_option maxRecDepth 1000000 in
/-- Witness for C9: the detail record of Lentil Soup in a concrete
store, with the four deduplicated lists. -/
theorem claim_C9_witness :
    recipe_detail gLentil lentilUri = some lentilDetail ∧
    ((lentilDetail.ingredients =
        specFirstSeenDedup (ingredientLabels gLentil lentilUri) ∧
      lentilDetail.ingredients.Nodup) ∧
    (lentilDetail.directions =
        specFirstSeenDedup (stepLabels gLentil lentilUri) ∧
      lentilDetail.directions.Nodup) ∧
    (lentilDetail.diets =
        specFirstSeenDedup (dietLabels gLentil lentilUri) ∧
      lentilDetail.diets.Nodup) ∧
    (lentilDetail.cuisines =
        specFirstSeenDedup (cuisineLabels gLentil lentilUri) ∧
      lentilDetail.cuisines.Nodup)) :=
  ⟨by decide, claim_C9_detail_dedup gLentil lentilUri lentilDetail (by decide)⟩

/-! ### Claim C6 -/

theorem populate_record_skip {g : Graph} {bn : Nat} {record : RecipeRecord}
    (h : record.name = "") : populate_record g bn record = (g, bn) := by
  unfold populate_record
  rw [if_pos h]

theorem populate_graph_filter_name :
    ∀ (records : List RecipeRecord) (g : Graph) (bn : Nat),
      populate_graph g bn (records.filter fun record => !(record.name == ""))
        = populate_graph g bn records := by
  intro records
  induction records with
  | nil => intro g bn; rfl
  | cons record rest ih =>
      intro g bn
      by_cases hname : record.name = ""
      · have hf : (List.filter (fun record => !(record.name == ""))
            (record :: rest)) =
            rest.filter fun record => !(record.name == "") := by
          simp [List.filter_cons, hname]
        rw [hf, ih]
        conv_rhs => rw [populate_graph]
        rw [populate_record_skip hname]
      · have hf : (List.filter (fun record => !(record.name == ""))
            (record :: rest)) =
            record :: rest.filter fun record => !(record.name == "") := by
          simp [List.filter_cons, hname]
        rw [hf]
        unfold populate_graph
        rw [ih]

/-- C6 (amended): records whose name is the empty string are silently
dropped — building from a record list is the same as building from the
list with all empty-named records removed, and the skip signals no
error (the builder is a total function).  However, a record whose name
is non-empty but contains no alphanumeric characters is NOT dropped:
normalisation yields the empty identifier and a Recipe entity with
identifier `rec:recipe-` is still produced (see the counterexample). -/
theorem claim_C6_empty_name_skipped :
    (∀ (records : List RecipeRecord),
      build_graph (records.filter fun record => !(record.name == "")) =
        build_graph records) ∧
    (∀ (g : Graph) (bn : Nat) (record : RecipeRecord), record.name = "" →
      populate_record g bn record = (g, bn)) := by
  constructor
  · intro records
    unfold build_graph
    rw [populate_graph_filter_name]
  · intro g bn record h
    exact populate_record_skip h

set_option maxRecDepth 1000000 in
/-- Counterexample to C6 as frozen: the record named "!!!" normalises
to the empty identifier, yet the builder does produce a Recipe entity
for it (with identifier `rec:recipe-`) instead of dropping it. -/
theorem claim_C6_counterexample :
    normalise_text "!!!" = "" ∧
    (⟨Node.uri "rec:recipe-".data, rdfTypeP, recipeCls⟩ : Triple) ∈
      build_graph [bangRec] := by
  constructor
  · decide
  · decide

/-! ### Claim C10 -/

theorem ratTrunc_ninety_half : ratTrunc (181 / 2 : ℚ) = 90 := by
  unfold ratTrunc
  rw [if_pos (by norm_num : (0 : ℚ) ≤ 181 / 2)]
  have : (⌊(181 / 2 : ℚ)⌋ : Int) = 90 := by
    rw [Int.floor_eq_iff]
    norm_num
  simpa using this

theorem addScalars_has_prep {g : Graph} {r : Node} {record : RecipeRecord}
    {n : Int} (h : record.prep_time = some n) :
    (⟨r, hasPrepTimeP, Node.int n⟩ : Triple) ∈ addScalars g r record := by
  unfold addScalars
  rw [h]
  cases record.url <;> cases record.rating <;> cases record.cook_time <;>
    cases record.total_time <;> cases record.servings <;> dsimp only <;>
    (try split) <;>
    (repeat first
      | exact mem_addFact_self _ _
      | refine addFact_subset _ _ ?_)

theorem addScalars_has_cook {g : Graph} {r : Node} {record : RecipeRecord}
    {n : Int} (h : record.cook_time = some n) :
    (⟨r, hasCookTimeP, Node.int n⟩ : Triple) ∈ addScalars g r record := by
  unfold addScalars
  rw [h]
  cases record.url <;> cases record.rating <;> cases record.prep_time <;>
    cases record.total_time <;> cases record.servings <;> dsimp only <;>
    (try split) <;>
    (repeat first
      | exact mem_addFact_self _ _
      | refine addFact_subset _ _ ?_)

theorem addScalars_has_total {g : Graph} {r : Node} {record : RecipeRecord}
    {n : Int} (h : record.total_time = some n) :
    (⟨r, hasTotalTimeP, Node.int n⟩ : Triple) ∈ addScalars g r record := by
  unfold addScalars
  rw [h]
  cases record.url <;> cases record.rating <;> cases record.prep_time <;>
    cases record.cook_time <;> cases record.servings <;> dsimp only <;>
    (try split) <;>
    (repeat first
      | exact mem_addFact_self _ _
      | refine addFact_subset _ _ ?_)

theorem addScalars_has_servings {g : Graph} {r : Node}
    {record : RecipeRecord} {n : Int} (h : record.servings = some n) :
    (⟨r, hasServingsP, Node.int n⟩ : Triple) ∈ addScalars g r record := by
  unfold addScalars
  rw [h]
  cases record.url <;> cases record.rating <;> cases record.prep_time <;>
    cases record.cook_time <;> cases record.total_time <;> dsimp only <;>
    (try split) <;>
    (repeat first
      | exact mem_addFact_self _ _
      | refine addFact_subset _ _ ?_)

theorem populate_record_extends_scalars {g : Graph} {bn : Nat}
    {record : RecipeRecord} {f : Triple} (hname : ¬record.name = "")
    (hf : f ∈ addScalars
      (addFact (addFact g ⟨recipeUriOf record.name, rdfTypeP, recipeCls⟩)
        ⟨recipeUriOf record.name, rdfsLabelP, Node.str record.name⟩)
      (recipeUriOf record.name) record) :
    f ∈ (populate_record g bn record).1 := by
  unfold populate_record
  rw [if_neg hname]
  dsimp only
  cases hcp : record.cuisine_path with
  | none =>
      dsimp only
      refine addSteps_subset _ _ _ _ _ ?_
      refine infer_subset _ _ _ ?_
      refine addIngredients_subset _ _ _ _ ?_
      exact hf
  | some p =>
      dsimp only
      by_cases hp : p = ""
      · rw [if_pos hp]
        refine addSteps_subset _ _ _ _ _ ?_
        refine infer_subset _ _ _ ?_
        refine addIngredients_subset _ _ _ _ ?_
        exact hf
      · rw [if_neg hp]
        refine addCuisineChain_subset _ _ _ _ ?_
        refine addSteps_subset _ _ _ _ _ ?_
        refine infer_subset _ _ _ ?_
        refine addIngredients_subset _ _ _ _ ?_
        exact hf

/-- C10: an integer field supplied as a finite fractional float is
ingested as the integer truncated toward zero (the truncation has the
float's sign and the floor of its magnitude) and is carried into the
parsed record as a present value, which the builder then attaches as a
present attribute; the field becomes absent exactly in the cases where
Python raises or short-circuits — `None`, float NaN, or a string whose
integer conversion fails (such as "90.5"). -/
theorem claim_C10_numeric_ingestion :
    (∀ q : ℚ, to_optional_int (PyVal.vfloat q) = some (ratTrunc q)) ∧
    (∀ q : ℚ, |ratTrunc q| = ⌊|q|⌋ ∧ (0 ≤ q → 0 ≤ ratTrunc q) ∧
      (q ≤ 0 → ratTrunc q ≤ 0)) ∧
    (to_optional_int PyVal.nan = Option.none ∧
      to_optional_int PyVal.none = Option.none) ∧
    (∀ s : String, pyIntOfString s = Option.none →
      to_optional_int (PyVal.vstr s) = Option.none) ∧
    (to_optional_int (PyVal.vstr "90.5") = Option.none ∧
      to_optional_int (PyVal.vfloat (181 / 2)) = some 90) ∧
    (∀ row : RawRow,
      (load_record row).prep_time = to_optional_int row.prep_time ∧
      (load_record row).cook_time = to_optional_int row.cook_time ∧
      (load_record row).total_time = to_optional_int row.total_time ∧
      (load_record row).servings = to_optional_int row.servings) ∧
    (∀ (record : RecipeRecord) (n : Int), record.name ≠ "" →
      (record.prep_time = some n →
        (⟨recipeUriOf record.name, hasPrepTimeP, Node.int n⟩ : Triple) ∈
          build_graph [record]) ∧
      (record.cook_time = some n →
        (⟨recipeUriOf record.name, hasCookTimeP, Node.int n⟩ : Triple) ∈
          build_graph [record]) ∧
      (record.total_time = some n →
        (⟨recipeUriOf record.name, hasTotalTimeP, Node.int n⟩ : Triple) ∈
          build_graph [record]) ∧
      (record.servings = some n →
        (⟨recipeUriOf record.name, hasServingsP, Node.int n⟩ : Triple) ∈
          build_graph [record])) := by
  refine ⟨fun q => rfl, ?_, ⟨rfl, rfl⟩, fun s h => h, ⟨by decide, ?_⟩,
    fun row => ⟨rfl, rfl, rfl, rfl⟩, ?_⟩
  · intro q
    unfold ratTrunc
    by_cases hq : 0 ≤ q
    · rw [if_pos hq]
      have h1 : |q| = q := abs_of_nonneg hq
      have h2 : (0 : Int) ≤ ⌊q⌋ := Int.floor_nonneg.2 hq
      rw [h1, abs_of_nonneg h2]
      exact ⟨rfl, fun _ => h2, fun hle => by
        have : q = 0 := le_antisymm hle hq
        simp [this]⟩
    · rw [if_neg hq]
      push_neg at hq
      have h1 : |q| = -q := abs_of_neg hq
      have h2 : ⌈q⌉ ≤ 0 := Int.ceil_le.mpr (by exact_mod_cast hq.le)
      rw [h1, abs_of_nonpos h2, Int.floor_neg]
      exact ⟨rfl, fun hge => absurd hge (not_le.2 hq), fun _ => h2⟩
  · show to_optional_int (PyVal.vfloat (181 / 2)) = some 90
    simp [to_optional_int, ratTrunc_ninety_half]
  · intro record n hname
    refine ⟨fun h => ?_, fun h => ?_, fun h => ?_, fun h => ?_⟩ <;>
      [exact populate_record_extends_scalars hname
        (addScalars_has_prep h);
       exact populate_record_extends_scalars hname
        (addScalars_has_cook h);
       exact populate_record_extends_scalars hname
        (addScalars_has_total h);
       exact populate_record_extends_scalars hname
        (addScalars_has_servings h)]

set_option maxRecDepth 1000000 in
/-- Witness for C10 on the concrete row: the fractional prep time 90.5
becomes the present value 90, the NaN cook time and the string "90.5"
servings become absent, and the present total time 30 is attached to
the built recipe. -/
theorem claim_C10_witness :
    (load_record rowW).prep_time = some 90 ∧
    (load_record rowW).cook_time = Option.none ∧
    (load_record rowW).servings = Option.none ∧
    ((load_record rowW).name ≠ "" ∧
      (load_record rowW).total_time = some 30) ∧
    (⟨recipeUriOf (load_record rowW).name, hasTotalTimeP, Node.int 30⟩ :
      Triple) ∈ build_graph [load_record rowW] :=
  ⟨by simp [load_record, rowW, to_optional_int, ratTrunc_ninety_half],
    by decide, by decide, ⟨by decide, by decide⟩,
    (claim_C10_numeric_ingestion.2.2.2.2.2.2 (load_record rowW) 30
      (by decide)).2.2.1 (by decide)⟩

/-! ### Claim C3: infrastructure -/

theorem ingredientUriOf_inj {a b : String}
    (h : ingredientUriOf a = ingredientUriOf b) :
    normaliseL a.data = normaliseL b.data := by
  unfold ingredientUriOf at h
  injection h with h
  exact List.append_cancel_left h

theorem chicken_token_of_norm {label : String}
    (h : normaliseL label.data = "chicken-stock".data) :
    hasSub (lowerL label.data) "chicken".data = true := by
  refine norm_sub _ _ (by decide) (by decide) ?_
  rw [h]
  decide

theorem chickenProp_addFact {g : Graph} {f : Triple} (h : chickenProp g) :
    chickenProp (addFact g f) := by
  rcases h with ⟨h1, l0, h2, h3⟩
  exact ⟨addFact_subset g f h1, l0, labelValue_addFact_keep h2, h3⟩

theorem chickenUri_lit :
    chickenUri = Node.uri ("rec:ingredient-".data ++ "chicken-stock".data) := by
  decide

theorem annotate_chicken_step {g : Graph} (label : String)
    (hinv : chickenINV g) :
    chickenINV (annotate_ingredient g label).1 ∧
    (normaliseL label.data = "chicken-stock".data →
      (⟨chickenUri, rdfTypeP, ingredientCls⟩ : Triple) ∈
        (annotate_ingredient g label).1) := by
  have hcs : normaliseL "Chicken Stock".data = "chicken-stock".data := by
    decide
  unfold annotate_ingredient
  by_cases hm :
      (⟨ingredientUriOf label, rdfTypeP, ingredientCls⟩ : Triple) ∈ g
  · rw [if_pos hm]
    refine ⟨hinv, fun hnorm => ?_⟩
    have hu : ingredientUriOf label = chickenUri := by
      rw [chickenUri_lit]
      unfold ingredientUriOf
      rw [hnorm]
    rw [← hu]
    exact hm
  · rw [if_neg hm]
    dsimp only
    by_cases hu : ingredientUriOf label = chickenUri
    · have hnorm : normaliseL label.data = "chicken-stock".data := by
        have h1 := ingredientUriOf_inj
          (show ingredientUriOf label = ingredientUriOf "Chicken Stock"
            from hu)
        rw [h1, hcs]
      have hmC : (⟨chickenUri, rdfTypeP, ingredientCls⟩ : Triple) ∉ g := by
        rw [← hu]; exact hm
      have hlbl0 : objsOf g chickenUri rdfsLabelP = [] := hinv.2 hmC
      have hsub : hasSub (lowerL label.data) "chicken".data = true :=
        chicken_token_of_norm hnorm
      have hanimal :
          (ANIMAL_PRODUCTS.any fun t => hasSub (lowerL label.data) t.data)
            = true :=
        List.any_eq_true.2 ⟨"chicken", by decide, hsub⟩
      rw [hu, if_pos hanimal]
      have hmem1 : (⟨chickenUri, rdfTypeP, ingredientCls⟩ : Triple) ∈
          addFact g ⟨chickenUri, rdfTypeP, ingredientCls⟩ :=
        mem_addFact_self _ _
      have hlblF : (⟨chickenUri, rdfsLabelP, Node.str label⟩ : Triple) ∉
          addFact g ⟨chickenUri, rdfTypeP, ingredientCls⟩ := by
        refine not_mem_addFact (fun hmem => ?_) (fun heq => ?_)
        · have : Node.str label ∈ objsOf g chickenUri rdfsLabelP :=
            mem_objsOf.2 hmem
          rw [hlbl0] at this
          exact (List.not_mem_nil _) this
        · exact (by decide : rdfsLabelP ≠ rdfTypeP)
            (congrArg Triple.pred heq)
      have hval : labelValue
          (addFact (addFact g ⟨chickenUri, rdfTypeP, ingredientCls⟩)
            ⟨chickenUri, rdfsLabelP, Node.str label⟩) chickenUri
          = some label := by
        unfold labelValue strLabelsOf
        have e1 : addFact (addFact g ⟨chickenUri, rdfTypeP, ingredientCls⟩)
            ⟨chickenUri, rdfsLabelP, Node.str label⟩ =
            addFact g ⟨chickenUri, rdfTypeP, ingredientCls⟩ ++
              [⟨chickenUri, rdfsLabelP, Node.str label⟩] :=
          addFact_of_not_mem hlblF
        rw [e1, objsOf_append,
          objsOf_addFact_ne (fun hc =>
            (by decide : rdfTypeP ≠ rdfsLabelP) hc.2), hlbl0]
        rfl
      have hprop : chickenProp
          (addFact (addFact (addFact g ⟨chickenUri, rdfTypeP, ingredientCls⟩)
            ⟨chickenUri, rdfsLabelP, Node.str label⟩)
            ⟨chickenUri, rdfTypeP, animalCls⟩) := by
        refine ⟨mem_addFact_self _ _, label, ?_, hsub⟩
        exact labelValue_addFact_keep hval
      have hmem3 : (⟨chickenUri, rdfTypeP, ingredientCls⟩ : Triple) ∈
          addFact (addFact (addFact g ⟨chickenUri, rdfTypeP, ingredientCls⟩)
            ⟨chickenUri, rdfsLabelP, Node.str label⟩)
            ⟨chickenUri, rdfTypeP, animalCls⟩ :=
        addFact_subset _ _ (addFact_subset _ _ hmem1)
      split
      · exact ⟨⟨fun _ => chickenProp_addFact hprop,
          fun hn => absurd (addFact_subset _ _ hmem3) hn⟩,
          fun _ => addFact_subset _ _ hmem3⟩
      · exact ⟨⟨fun _ => hprop, fun hn => absurd hmem3 hn⟩, fun _ => hmem3⟩
    · have hne : ∀ (o : Node) (p : String),
          (⟨chickenUri, rdfTypeP, ingredientCls⟩ : Triple) ≠
            ⟨ingredientUriOf label, p, o⟩ := by
        intro o p heq
        exact hu (congrArg Triple.subj heq).symm
      constructor
      · constructor
        · intro hmemC
          have hgC : (⟨chickenUri, rdfTypeP, ingredientCls⟩ : Triple) ∈ g := by
            revert hmemC
            split <;> split <;>
              (intro hmemC
               repeat rcases mem_addFact.1 hmemC with hmemC | heq
               repeat' first
                 | exact hmemC
                 | exact absurd heq (hne _ _))
          have := hinv.1 hgC
          revert this
          split <;> split <;>
            (intro hp
             repeat' refine chickenProp_addFact ?_
             exact hp)
        · intro hn
          have hgN : (⟨chickenUri, rdfTypeP, ingredientCls⟩ : Triple) ∉ g := by
            intro hg
            apply hn
            revert hg
            split <;> split <;>
              (intro hg
               repeat' refine addFact_subset _ _ ?_
               exact hg)
          have h0 := hinv.2 hgN
          split <;> split <;>
            (repeat rw [objsOf_addFact_ne (fun hc => hu hc.1)]) <;>
            (try exact h0)
      · intro hnorm
        exact absurd (by
          rw [chickenUri_lit]
          unfold ingredientUriOf
          rw [hnorm]) hu

theorem annotate_snd (g : Graph) (label : String) :
    (annotate_ingredient g label).2 = ingredientUriOf label := by
  unfold annotate_ingredient
  by_cases hm :
      (⟨ingredientUriOf label, rdfTypeP, ingredientCls⟩ : Triple) ∈ g
  · rw [if_pos hm]
  · rw [if_neg hm]

theorem chickenINV_addFact_pred {g : Graph} {f : Triple}
    (hinv : chickenINV g) (h1 : f.pred ≠ rdfTypeP)
    (h2 : f.pred ≠ rdfsLabelP) : chickenINV (addFact g f) := by
  constructor
  · intro hmem
    rcases mem_addFact.1 hmem with hmemg | heq
    · exact chickenProp_addFact (hinv.1 hmemg)
    · exact absurd (congrArg Triple.pred heq).symm h1
  · intro hn
    have hng : (⟨chickenUri, rdfTypeP, ingredientCls⟩ : Triple) ∉ g :=
      fun hg => hn (addFact_subset _ _ hg)
    rw [objsOf_addFact_ne (fun hc => h2 hc.2)]
    exact hinv.2 hng

theorem addIngredients_chicken (r : Node) :
    ∀ (labels : List String) (g : Graph) (acc : List Node),
      chickenINV g →
      ("Chicken Stock" ∈ labels ∨
        ((⟨chickenUri, rdfTypeP, ingredientCls⟩ : Triple) ∈ g ∧
          chickenUri ∈ acc)) →
      chickenINV (addIngredients g r labels acc).1 ∧
      (⟨chickenUri, rdfTypeP, ingredientCls⟩ : Triple) ∈
        (addIngredients g r labels acc).1 ∧
      chickenUri ∈ (addIngredients g r labels acc).2 := by
  intro labels
  induction labels with
  | nil =>
      intro g acc hinv hyp
      rcases hyp with hcs | ⟨hmem, hacc⟩
      · exact absurd hcs (List.not_mem_nil _)
      · exact ⟨hinv, hmem, hacc⟩
  | cons label rest ih =>
      intro g acc hinv hyp
      unfold addIngredients
      have hstep := annotate_chicken_step label hinv
      have hinv' : chickenINV (addFact (annotate_ingredient g label).1
          ⟨r, hasIngredientP, (annotate_ingredient g label).2⟩) :=
        chickenINV_addFact_pred hstep.1
          (by decide : hasIngredientP ≠ rdfTypeP)
          (by decide : hasIngredientP ≠ rdfsLabelP)
      rcases hyp with hcs | ⟨hmem, hacc⟩
      · rcases List.mem_cons.1 hcs with heq | hrest
        · have hnorm : normaliseL label.data = "chicken-stock".data := by
            rw [← heq]
            decide
          have hmem' : (⟨chickenUri, rdfTypeP, ingredientCls⟩ : Triple) ∈
              addFact (annotate_ingredient g label).1
                ⟨r, hasIngredientP, (annotate_ingredient g label).2⟩ :=
            addFact_subset _ _ (hstep.2 hnorm)
          have hu : (annotate_ingredient g label).2 = chickenUri := by
            rw [annotate_snd, chickenUri_lit]
            unfold ingredientUriOf
            rw [hnorm]
          refine ih _ _ hinv' (Or.inr ⟨hmem', ?_⟩)
          rw [hu]
          exact List.mem_append.2 (Or.inr (List.mem_singleton_self _))
        · exact ih _ _ hinv' (Or.inl hrest)
      · have hmem' : (⟨chickenUri, rdfTypeP, ingredientCls⟩ : Triple) ∈
            addFact (annotate_ingredient g label).1
              ⟨r, hasIngredientP, (annotate_ingredient g label).2⟩ :=
          addFact_subset _ _ (annotate_subset g label hmem)
        refine ih _ _ hinv' (Or.inr ⟨hmem', ?_⟩)
        exact List.mem_append.2 (Or.inl hacc)

theorem noGluten_annotate {g : Graph} {label : String}
    (hng : noGlutenMarks g)
    (hlab : (GLUTEN_GRAINS.any fun t => hasSub (lowerL label.data) t.data)
      = false) : noGlutenMarks (annotate_ingredient g label).1 := by
  intro x
  unfold annotate_ingredient
  by_cases hm :
      (⟨ingredientUriOf label, rdfTypeP, ingredientCls⟩ : Triple) ∈ g
  · rw [if_pos hm]
    exact hng x
  · rw [if_neg hm]
    dsimp only
    rw [hlab]
    rw [if_neg (by simp : ¬(false = true))]
    split <;>
      (repeat first
        | exact hng x
        | refine not_mem_addFact ?_ (fun heq => by
            first
              | exact (by decide : glutenCls ≠ ingredientCls)
                  (congrArg Triple.obj heq)
              | exact (by decide : glutenCls ≠ animalCls)
                  (congrArg Triple.obj heq)
              | exact (fun hx => by simp [glutenCls] at hx)
                  (congrArg Triple.obj heq)))

theorem noGluten_addIngredients (r : Node) :
    ∀ (labels : List String) (g : Graph) (acc : List Node),
      noGlutenMarks g →
      (∀ label ∈ labels,
        (GLUTEN_GRAINS.any fun t => hasSub (lowerL label.data) t.data)
          = false) →
      noGlutenMarks (addIngredients g r labels acc).1 := by
  intro labels
  induction labels with
  | nil => intro g acc hng _; exact hng
  | cons label rest ih =>
      intro g acc hng hall
      unfold addIngredients
      refine ih _ _ (fun x => ?_) (fun l hl => hall l (List.mem_cons_of_mem _ hl))
      refine not_mem_addFact
        (noGluten_annotate hng (hall label (List.mem_cons_self _ _)) x)
        (fun heq => ?_)
      exact (by decide : rdfTypeP ≠ hasIngredientP) (congrArg Triple.pred heq)

theorem infer_chicken {g : Graph} {r : Node} {uris : List Node}
    (hcp : chickenProp g) (hu : chickenUri ∈ uris)
    (hng : noGlutenMarks g) :
    ((⟨r, hasDietP, veganN⟩ : Triple) ∉ g →
      (⟨r, hasDietP, veganN⟩ : Triple) ∉ infer_diets g r uris) ∧
    ((⟨r, hasDietP, vegetarianN⟩ : Triple) ∉ g →
      (⟨r, hasDietP, vegetarianN⟩ : Triple) ∉ infer_diets g r uris) ∧
    (⟨r, hasDietP, glutenFreeN⟩ : Triple) ∈ infer_diets g r uris := by
  unfold infer_diets
  dsimp only
  have hA : (uris.any fun u =>
      decide ((⟨u, rdfTypeP, animalCls⟩ : Triple) ∈ g)) = true :=
    List.any_eq_true.2 ⟨chickenUri, hu, decide_eq_true hcp.1⟩
  have hG : (uris.any fun u =>
      decide ((⟨u, rdfTypeP, glutenCls⟩ : Triple) ∈ g)) = false :=
    List.any_eq_false.2 fun x _ => by
      simp only [decide_eq_true_eq]
      exact hng x
  have hM : (uris.any fun u =>
      match labelValue g u with
      | some l => MEAT_TOKENS.any fun t => hasSub (lowerL l.data) t.data
      | none => false) = true := by
    rcases hcp.2 with ⟨l0, hval, hsub⟩
    refine List.any_eq_true.2 ⟨chickenUri, hu, ?_⟩
    rw [hval]
    exact List.any_eq_true.2 ⟨"chicken", by decide, hsub⟩
  rw [hA, hM, hG]
  simp only [if_pos rfl, if_neg (by simp : ¬(false = true))]
  refine ⟨?_, ?_, ?_⟩
  · intro hvg
    refine not_mem_addFact (not_mem_addFact hvg (fun heq => ?_))
      (fun heq => ?_)
    · exact (by decide : veganN ≠ glutenFreeN) (congrArg Triple.obj heq)
    · exact (by decide : hasDietP ≠ avoidsCategoryP)
        (congrArg Triple.pred heq)
  · intro hvt
    refine not_mem_addFact (not_mem_addFact hvt (fun heq => ?_))
      (fun heq => ?_)
    · exact (by decide : vegetarianN ≠ glutenFreeN) (congrArg Triple.obj heq)
    · exact (by decide : hasDietP ≠ avoidsCategoryP)
        (congrArg Triple.pred heq)
  · exact addFact_subset _ _ (mem_addFact_self _ _)

theorem infer_chicken_no_vegan {g : Graph} {r : Node} {uris : List Node}
    (hcp : chickenProp g) (hu : chickenUri ∈ uris) :
    ((⟨r, hasDietP, veganN⟩ : Triple) ∉ g →
      (⟨r, hasDietP, veganN⟩ : Triple) ∉ infer_diets g r uris) ∧
    ((⟨r, hasDietP, vegetarianN⟩ : Triple) ∉ g →
      (⟨r, hasDietP, vegetarianN⟩ : Triple) ∉ infer_diets g r uris) := by
  unfold infer_diets
  dsimp only
  have hA : (uris.any fun u =>
      decide ((⟨u, rdfTypeP, animalCls⟩ : Triple) ∈ g)) = true :=
    List.any_eq_true.2 ⟨chickenUri, hu, decide_eq_true hcp.1⟩
  have hM : (uris.any fun u =>
      match labelValue g u with
      | some l => MEAT_TOKENS.any fun t => hasSub (lowerL l.data) t.data
      | none => false) = true := by
    rcases hcp.2 with ⟨l0, hval, hsub⟩
    refine List.any_eq_true.2 ⟨chickenUri, hu, ?_⟩
    rw [hval]
    exact List.any_eq_true.2 ⟨"chicken", by decide, hsub⟩
  rw [hA, hM]
  simp only [if_pos rfl]
  constructor <;> intro h <;>
    (repeat first
      | exact h
      | exact absurd trivial ‹¬True›
      | split
      | refine not_mem_addFact ?_ (fun heq => by
          first
            | exact (by decide : veganN ≠ glutenFreeN)
                (congrArg Triple.obj heq)
            | exact (by decide : vegetarianN ≠ glutenFreeN)
                (congrArg Triple.obj heq)
            | exact (by decide : hasDietP ≠ avoidsCategoryP)
                (congrArg Triple.pred heq)))

theorem populate_record_chicken (g0' : Graph) (bn : Nat)
    (record : RecipeRecord) (hname : record.name ≠ "")
    (hcs : "Chicken Stock" ∈ record.ingredients)
    (h1 : (⟨chickenUri, rdfTypeP, ingredientCls⟩ : Triple) ∉ g0')
    (h2 : objsOf g0' chickenUri rdfsLabelP = [])
    (h3 : (⟨recipeUriOf record.name, hasDietP, veganN⟩ : Triple) ∉ g0')
    (h4 : (⟨recipeUriOf record.name, hasDietP, vegetarianN⟩ : Triple) ∉ g0')
    (h5 : noGlutenMarks g0') :
    (⟨recipeUriOf record.name, hasDietP, veganN⟩ : Triple) ∉
      (populate_record g0' bn record).1 ∧
    (⟨recipeUriOf record.name, hasDietP, vegetarianN⟩ : Triple) ∉
      (populate_record g0' bn record).1 ∧
    ((∀ ing ∈ record.ingredients, ∀ t ∈ GLUTEN_GRAINS,
        hasSub (lowerL ing.data) t.data = false) →
      (⟨recipeUriOf record.name, hasDietP, glutenFreeN⟩ : Triple) ∈
        (populate_record g0' bn record).1) := by
  have hrne : ∀ s : String, recipeUriOf s ≠ chickenUri := by
    intro s h
    rw [chickenUri_lit] at h
    unfold recipeUriOf at h
    injection h with h
    have h4' : ("rec:recipe-".data ++ normaliseL s.data).get? 4 =
        ("rec:ingredient-".data ++ "chicken-stock".data).get? 4 := by
      rw [h]
    rw [List.get?_append
      (by decide : 4 < ("rec:recipe-".data).length)] at h4'
    exact absurd h4' (by decide)
  have hinv3 : chickenINV (addScalars
      (addFact (addFact g0' ⟨recipeUriOf record.name, rdfTypeP, recipeCls⟩)
        ⟨recipeUriOf record.name, rdfsLabelP, Node.str record.name⟩)
      (recipeUriOf record.name) record) := by
    constructor
    · intro hmem
      exfalso
      apply absurd hmem
      refine addScalars_notin ?_ (by decide : rdfTypeP ∉ scalarPreds)
      refine not_mem_addFact (not_mem_addFact h1 (fun heq => ?_))
        (fun heq => ?_)
      · exact (by decide : ingredientCls ≠ recipeCls)
          (congrArg Triple.obj heq)
      · exact (by decide : rdfTypeP ≠ rdfsLabelP) (congrArg Triple.pred heq)
    · intro _
      rw [addScalars_objsOf (by decide : rdfsLabelP ∉ scalarPreds),
        objsOf_addFact_ne (fun hc => hrne record.name hc.1),
        objsOf_addFact_ne
          (fun hc => (by decide : rdfTypeP ≠ rdfsLabelP) hc.2)]
      exact h2
  have hB := addIngredients_chicken (recipeUriOf record.name)
    record.ingredients _ [] hinv3 (Or.inl hcs)
  have hcp4 := hB.1.1 hB.2.1
  have hu4 := hB.2.2
  have hVn : (⟨recipeUriOf record.name, hasDietP, veganN⟩ : Triple) ∉
      (addIngredients (addScalars
        (addFact (addFact g0'
          ⟨recipeUriOf record.name, rdfTypeP, recipeCls⟩)
          ⟨recipeUriOf record.name, rdfsLabelP, Node.str record.name⟩)
        (recipeUriOf record.name) record)
        (recipeUriOf record.name) record.ingredients []).1 := by
    refine addIngredients_notin _ _ _ _ ?_
      (by decide : hasDietP ≠ rdfTypeP)
      (by decide : hasDietP ≠ rdfsLabelP)
      (by decide : hasDietP ≠ hasIngredientP)
    refine addScalars_notin ?_ (by decide : hasDietP ∉ scalarPreds)
    refine not_mem_addFact (not_mem_addFact h3 (fun heq => ?_))
      (fun heq => ?_)
    · exact (by decide : hasDietP ≠ rdfTypeP) (congrArg Triple.pred heq)
    · exact (by decide : hasDietP ≠ rdfsLabelP) (congrArg Triple.pred heq)
  have hVt : (⟨recipeUriOf record.name, hasDietP, vegetarianN⟩ : Triple) ∉
      (addIngredients (addScalars
        (addFact (addFact g0'
          ⟨recipeUriOf record.name, rdfTypeP, recipeCls⟩)
          ⟨recipeUriOf record.name, rdfsLabelP, Node.str record.name⟩)
        (recipeUriOf record.name) record)
        (recipeUriOf record.name) record.ingredients []).1 := by
    refine addIngredients_notin _ _ _ _ ?_
      (by decide : hasDietP ≠ rdfTypeP)
      (by decide : hasDietP ≠ rdfsLabelP)
      (by decide : hasDietP ≠ hasIngredientP)
    refine addScalars_notin ?_ (by decide : hasDietP ∉ scalarPreds)
    refine not_mem_addFact (not_mem_addFact h4 (fun heq => ?_))
      (fun heq => ?_)
    · exact (by decide : hasDietP ≠ rdfTypeP) (congrArg Triple.pred heq)
    · exact (by decide : hasDietP ≠ rdfsLabelP) (congrArg Triple.pred heq)
  unfold populate_record
  rw [if_neg hname]
  dsimp only
  refine ⟨?_, ?_, ?_⟩
  · cases hcp : record.cuisine_path with
    | none =>
        dsimp only
        refine addSteps_notin _ _ _ _ _ ?_
          (by decide : hasDietP ≠ rdfTypeP)
          (by decide : hasDietP ≠ rdfsLabelP)
          (by decide : hasDietP ≠ schemaPositionP)
          (by decide : hasDietP ≠ schemaStepP)
        exact (infer_chicken_no_vegan hcp4 hu4).1 hVn
    | some p =>
        dsimp only
        by_cases hp : p = ""
        · rw [if_pos hp]
          refine addSteps_notin _ _ _ _ _ ?_
            (by decide : hasDietP ≠ rdfTypeP)
            (by decide : hasDietP ≠ rdfsLabelP)
            (by decide : hasDietP ≠ schemaPositionP)
            (by decide : hasDietP ≠ schemaStepP)
          exact (infer_chicken_no_vegan hcp4 hu4).1 hVn
        · rw [if_neg hp]
          refine addCuisineChain_notin _ _ _ _ ?_
            (by decide : hasDietP ≠ rdfTypeP)
            (by decide : hasDietP ≠ rdfsLabelP)
            (by decide : hasDietP ≠ subClassOfP)
            (by decide : hasDietP ≠ hasCuisineP)
          refine addSteps_notin _ _ _ _ _ ?_
            (by decide : hasDietP ≠ rdfTypeP)
            (by decide : hasDietP ≠ rdfsLabelP)
            (by decide : hasDietP ≠ schemaPositionP)
            (by decide : hasDietP ≠ schemaStepP)
          exact (infer_chicken_no_vegan hcp4 hu4).1 hVn
  · cases hcp : record.cuisine_path with
    | none =>
        dsimp only
        refine addSteps_notin _ _ _ _ _ ?_
          (by decide : hasDietP ≠ rdfTypeP)
          (by decide : hasDietP ≠ rdfsLabelP)
          (by decide : hasDietP ≠ schemaPositionP)
          (by decide : hasDietP ≠ schemaStepP)
        exact (infer_chicken_no_vegan hcp4 hu4).2 hVt
    | some p =>
        dsimp only
        by_cases hp : p = ""
        · rw [if_pos hp]
          refine addSteps_notin _ _ _ _ _ ?_
            (by decide : hasDietP ≠ rdfTypeP)
            (by decide : hasDietP ≠ rdfsLabelP)
            (by decide : hasDietP ≠ schemaPositionP)
            (by decide : hasDietP ≠ schemaStepP)
          exact (infer_chicken_no_vegan hcp4 hu4).2 hVt
        · rw [if_neg hp]
          refine addCuisineChain_notin _ _ _ _ ?_
            (by decide : hasDietP ≠ rdfTypeP)
            (by decide : hasDietP ≠ rdfsLabelP)
            (by decide : hasDietP ≠ subClassOfP)
            (by decide : hasDietP ≠ hasCuisineP)
          refine addSteps_notin _ _ _ _ _ ?_
            (by decide : hasDietP ≠ rdfTypeP)
            (by decide : hasDietP ≠ rdfsLabelP)
            (by decide : hasDietP ≠ schemaPositionP)
            (by decide : hasDietP ≠ schemaStepP)
          exact (infer_chicken_no_vegan hcp4 hu4).2 hVt
  · intro hgl
    have hng3 : noGlutenMarks (addScalars
        (addFact (addFact g0'
          ⟨recipeUriOf record.name, rdfTypeP, recipeCls⟩)
          ⟨recipeUriOf record.name, rdfsLabelP, Node.str record.name⟩)
        (recipeUriOf record.name) record) := by
      intro x
      refine addScalars_notin ?_ (by decide : rdfTypeP ∉ scalarPreds)
      refine not_mem_addFact (not_mem_addFact (h5 x) (fun heq => ?_))
        (fun heq => ?_)
      · exact (by decide : glutenCls ≠ recipeCls) (congrArg Triple.obj heq)
      · exact (by decide : rdfTypeP ≠ rdfsLabelP) (congrArg Triple.pred heq)
    have hng4 : noGlutenMarks
        ((addIngredients (addScalars
          (addFact (addFact g0'
            ⟨recipeUriOf record.name, rdfTypeP, recipeCls⟩)
            ⟨recipeUriOf record.name, rdfsLabelP, Node.str record.name⟩)
          (recipeUriOf record.name) record)
          (recipeUriOf record.name) record.ingredients []).1) := by
      refine noGluten_addIngredients _ _ _ _ hng3 ?_
      intro label hl
      exact List.any_eq_false.2 fun t ht => by
        rw [hgl label hl t ht]
        simp
    cases hcp : record.cuisine_path with
    | none =>
        dsimp only
        refine addSteps_subset _ _ _ _ _ ?_
        exact (infer_chicken hcp4 hu4 hng4).2.2
    | some p =>
        dsimp only
        by_cases hp : p = ""
        · rw [if_pos hp]
          refine addSteps_subset _ _ _ _ _ ?_
          exact (infer_chicken hcp4 hu4 hng4).2.2
        · rw [if_neg hp]
          refine addCuisineChain_subset _ _ _ _ ?_
          refine addSteps_subset _ _ _ _ _ ?_
          exact (infer_chicken hcp4 hu4 hng4).2.2

/-- C3: a recipe built from a record whose ingredients include the
label "Chicken Stock" receives neither the Vegan nor the Vegetarian
diet — the ingredient is marked `AnimalProduct` because "chicken" is an
animal-product keyword under substring matching, and the same token in
its stored label is a meat token, so both diet branches of
`infer_diets` are skipped — and it does receive GlutenFree provided no
ingredient label contains a gluten-bearing keyword.  (Stated for a
single-record build; the record is otherwise arbitrary.) -/
theorem claim_C3_chicken_stock (record : RecipeRecord)
    (hname : record.name ≠ "")
    (hcs : "Chicken Stock" ∈ record.ingredients) :
    (⟨recipeUriOf record.name, hasDietP, veganN⟩ : Triple) ∉
      build_graph [record] ∧
    (⟨recipeUriOf record.name, hasDietP, vegetarianN⟩ : Triple) ∉
      build_graph [record] ∧
    ((∀ ing ∈ record.ingredients, ∀ t ∈ GLUTEN_GRAINS,
        hasSub (lowerL ing.data) t.data = false) →
      (⟨recipeUriOf record.name, hasDietP, glutenFreeN⟩ : Triple) ∈
        build_graph [record]) := by
  have hb : build_graph [record] =
      (populate_record (add_ontology_schema []) 0 record).1 := rfl
  rw [hb]
  refine populate_record_chicken _ 0 record hname hcs
    (fun hmem => ?_) (by decide)
    (fun hmem => ?_) (fun hmem => ?_) (fun x hmem => ?_)
  · exact (by decide : ∀ f ∈ add_ontology_schema [],
      f.obj ≠ ingredientCls) _ hmem rfl
  · exact (by decide : ∀ f ∈ add_ontology_schema [],
      f.pred ≠ hasDietP) _ hmem rfl
  · exact (by decide : ∀ f ∈ add_ontology_schema [],
      f.pred ≠ hasDietP) _ hmem rfl
  · exact (by decide : ∀ f ∈ add_ontology_schema [],
      f.obj ≠ glutenCls) _ hmem rfl

set_option maxRecDepth 1000000 in
/-- Witness for C3 at the concrete Chicken Soup record: not Vegan, not
Vegetarian, and GlutenFree since neither "Chicken Stock" nor "Rice"
contains a gluten keyword. -/
theorem claim_C3_witness :
    (chickRec.name ≠ "" ∧ "Chicken Stock" ∈ chickRec.ingredients ∧
      (∀ ing ∈ chickRec.ingredients, ∀ t ∈ GLUTEN_GRAINS,
        hasSub (lowerL ing.data) t.data = false)) ∧
    ((⟨recipeUriOf chickRec.name, hasDietP, veganN⟩ : Triple) ∉
      build_graph [chickRec] ∧
    (⟨recipeUriOf chickRec.name, hasDietP, vegetarianN⟩ : Triple) ∉
      build_graph [chickRec] ∧
    ((∀ ing ∈ chickRec.ingredients, ∀ t ∈ GLUTEN_GRAINS,
        hasSub (lowerL ing.data) t.data = false) →
      (⟨recipeUriOf chickRec.name, hasDietP, glutenFreeN⟩ : Triple) ∈
        build_graph [chickRec])) :=
  ⟨⟨by decide, by decide, by decide⟩,
    claim_C3_chicken_stock chickRec (by decide) (by decide)⟩

/-! ### Claim C7: infrastructure -/

theorem chainLast_eq :
    ∀ (segs : List (List Char)) (parent : Option Node),
      chainLast segs parent =
        match segs.getLast? with
        | some s => some (cuisineUriOf s)
        | Option.none => parent := by
  intro segs
  induction segs with
  | nil => intro parent; rfl
  | cons seg rest ih =>
      intro parent
      unfold chainLast
      rw [ih]
      cases rest with
      | nil => rfl
      | cons b bs =>
          rw [List.getLast?_cons_cons]
          cases hbs : (b :: bs).getLast? with
          | none =>
              rw [List.getLast?_eq_none_iff] at hbs
              cases hbs
          | some s => rfl

theorem objsOf_eq_nil_of_pred_ne {g : Graph} {s : Node} {p : String}
    (h : ∀ f ∈ g, f.pred ≠ p) : objsOf g s p = [] := by
  unfold objsOf
  rw [List.filterMap_eq_nil]
  intro f hf
  rw [if_neg (fun hc => h f hf hc.2)]

theorem addCuisineChain_hasCuisine (r : Node) :
    ∀ (segs : List (List Char)) (g : Graph) (parent : Option Node),
      objsOf g r hasCuisineP = [] →
      objsOf (addCuisineChain g r segs parent) r hasCuisineP =
        match chainLast segs parent with
        | some q => [q]
        | Option.none => [] := by
  intro segs
  induction segs with
  | nil =>
      intro g parent h0
      unfold addCuisineChain chainLast
      cases parent with
      | none => exact h0
      | some q =>
          dsimp only
          have hnm : (⟨r, hasCuisineP, q⟩ : Triple) ∉ g := fun hmem => by
            have : q ∈ objsOf g r hasCuisineP := mem_objsOf.2 hmem
            rw [h0] at this
            exact (List.not_mem_nil _) this
          rw [addFact_of_not_mem hnm, objsOf_append, h0]
          simp [objsOf]
  | cons seg rest ih =>
      intro g parent h0
      unfold addCuisineChain
      dsimp only
      rw [show chainLast (seg :: rest) parent =
        chainLast rest (some (cuisineUriOf seg)) from rfl]
      refine ih _ _ ?_
      have hstep : ∀ (g1 : Graph), objsOf g1 r hasCuisineP = [] →
          objsOf (match parent with
            | some pn => addFact g1 ⟨cuisineUriOf seg, subClassOfP, pn⟩
            | Option.none => g1) r hasCuisineP = [] := by
        intro g1 hg1
        cases parent with
        | none => exact hg1
        | some pn =>
            rw [objsOf_addFact_ne
              (fun hc => (by decide : subClassOfP ≠ hasCuisineP) hc.2)]
            exact hg1
      refine hstep _ ?_
      split
      · exact h0
      · rw [objsOf_addFact_ne
          (fun hc => (by decide : rdfsLabelP ≠ hasCuisineP) hc.2),
          objsOf_addFact_ne
          (fun hc => (by decide : rdfTypeP ≠ hasCuisineP) hc.2)]
        exact h0

theorem addCuisineChain_types (r : Node) :
    ∀ (segs : List (List Char)) (g : Graph) (parent : Option Node),
      ∀ seg ∈ segs,
        (⟨cuisineUriOf seg, rdfTypeP, cuisineCls⟩ : Triple) ∈
          addCuisineChain g r segs parent := by
  intro segs
  induction segs with
  | nil => intro g parent seg hm; exact absurd hm (List.not_mem_nil _)
  | cons s0 rest ih =>
      intro g parent seg hm
      unfold addCuisineChain
      rcases List.mem_cons.1 hm with heq | hm'
      · subst heq
        refine addCuisineChain_subset _ _ _ _ ?_
        dsimp only
        have hmem : (⟨cuisineUriOf seg, rdfTypeP, cuisineCls⟩ : Triple) ∈
            (if (⟨cuisineUriOf seg, rdfTypeP, cuisineCls⟩ : Triple) ∈ g
              then g
              else addFact (addFact g
                ⟨cuisineUriOf seg, rdfTypeP, cuisineCls⟩)
                ⟨cuisineUriOf seg, rdfsLabelP, Node.str ⟨seg⟩⟩) := by
          split
          · assumption
          · exact addFact_subset _ _ (mem_addFact_self _ _)
        cases parent with
        | none => exact hmem
        | some pn => exact addFact_subset _ _ hmem
      · exact ih _ _ seg hm'

theorem addCuisineChain_head_link (r : Node) (s0 : List Char)
    (rest : List (List Char)) (g : Graph) (pn : Node) :
    (⟨cuisineUriOf s0, subClassOfP, pn⟩ : Triple) ∈
      addCuisineChain g r (s0 :: rest) (some pn) := by
  unfold addCuisineChain
  refine addCuisineChain_subset _ _ _ _ ?_
  exact mem_addFact_self _ _

theorem addCuisineChain_links (r : Node) :
    ∀ (segs : List (List Char)) (g : Graph) (parent : Option Node)
      (i : Nat) (h : i + 1 < segs.length),
      (⟨cuisineUriOf (segs.get ⟨i + 1, h⟩), subClassOfP,
        cuisineUriOf (segs.get ⟨i, Nat.lt_of_succ_lt h⟩)⟩ : Triple) ∈
        addCuisineChain g r segs parent := by
  intro segs
  induction segs with
  | nil => intro g parent i h; exact absurd h (by simp)
  | cons s0 rest ih =>
      intro g parent i h
      cases i with
      | zero =>
          cases rest with
          | nil => exact absurd h (by simp)
          | cons s1 bs =>
              show (⟨cuisineUriOf s1, subClassOfP, cuisineUriOf s0⟩ :
                Triple) ∈ addCuisineChain g r (s0 :: s1 :: bs) parent
              unfold addCuisineChain
              dsimp only
              exact addCuisineChain_head_link r s1 bs _ (cuisineUriOf s0)
      | succ j =>
          have hlt : j + 1 < rest.length := Nat.lt_of_succ_lt_succ h
          have := ih (match parent with
            | some pn =>
                addFact ((if (⟨cuisineUriOf s0, rdfTypeP, cuisineCls⟩ :
                    Triple) ∈ g then g
                  else addFact (addFact g
                    ⟨cuisineUriOf s0, rdfTypeP, cuisineCls⟩)
                    ⟨cuisineUriOf s0, rdfsLabelP, Node.str ⟨s0⟩⟩))
                  ⟨cuisineUriOf s0, subClassOfP, pn⟩
            | Option.none =>
                (if (⟨cuisineUriOf s0, rdfTypeP, cuisineCls⟩ :
                    Triple) ∈ g then g
                  else addFact (addFact g
                    ⟨cuisineUriOf s0, rdfTypeP, cuisineCls⟩)
                    ⟨cuisineUriOf s0, rdfsLabelP, Node.str ⟨s0⟩⟩))
            (some (cuisineUriOf s0)) j hlt
          exact this

set_option maxRecDepth 1000000 in
/-- C7: for a record carrying a (non-empty) cuisine hierarchy path, the
builder creates or reuses one Cuisine node per trimmed non-empty path
segment, links each node to its predecessor via `rdfs:subClassOf`, and
attaches exactly the final (most specific) node to the recipe via
`hasCuisine`.  Concretely, the Lentil Soup record with path
"Asian>Indian" gets `rec:cuisine-indian` as its only `hasCuisine`
object, and two records sharing the segment "Asian" produce a single
`rec:cuisine-asian` node (global deduplication by normalised label). -/
theorem claim_C7_cuisine_chain (record : RecipeRecord)
    (hname : record.name ≠ "") (p : String)
    (hp : record.cuisine_path = some p) (hpne : p ≠ "") :
    ((∀ lastSeg, (cuisineSegs p).getLast? = some lastSeg →
      objsOf (build_graph [record]) (recipeUriOf record.name) hasCuisineP
        = [cuisineUriOf lastSeg]) ∧
    (∀ seg ∈ cuisineSegs p,
      (⟨cuisineUriOf seg, rdfTypeP, cuisineCls⟩ : Triple) ∈
        build_graph [record]) ∧
    (∀ (i : Nat) (h : i + 1 < (cuisineSegs p).length),
      (⟨cuisineUriOf ((cuisineSegs p).get ⟨i + 1, h⟩), subClassOfP,
        cuisineUriOf ((cuisineSegs p).get ⟨i, Nat.lt_of_succ_lt h⟩)⟩ :
        Triple) ∈ build_graph [record])) ∧
    objsOf (build_graph [lentilRec]) (recipeUriOf "Lentil Soup")
      hasCuisineP = [Node.uri "rec:cuisine-indian".data] ∧
    (build_graph [lentilRec, thaiRec]).count
      (⟨Node.uri "rec:cuisine-asian".data, rdfTypeP, cuisineCls⟩ : Triple)
      = 1 := by
  refine ⟨?_, by decide, by decide⟩
  have hb : build_graph [record] =
      (populate_record (add_ontology_schema []) 0 record).1 := rfl
  rw [hb]
  unfold populate_record
  rw [if_neg hname, hp]
  dsimp only
  rw [if_neg hpne]
  have hpre : objsOf
      ((addSteps (infer_diets
        ((addIngredients (addScalars
          (addFact (addFact (add_ontology_schema [])
            ⟨recipeUriOf record.name, rdfTypeP, recipeCls⟩)
            ⟨recipeUriOf record.name, rdfsLabelP, Node.str record.name⟩)
          (recipeUriOf record.name) record)
          (recipeUriOf record.name) record.ingredients []).1)
        (recipeUriOf record.name)
        ((addIngredients (addScalars
          (addFact (addFact (add_ontology_schema [])
            ⟨recipeUriOf record.name, rdfTypeP, recipeCls⟩)
            ⟨recipeUriOf record.name, rdfsLabelP, Node.str record.name⟩)
          (recipeUriOf record.name) record)
          (recipeUriOf record.name) record.ingredients []).2))
        (recipeUriOf record.name) record.directions 1 0).1)
      (recipeUriOf record.name) hasCuisineP = [] := by
    rw [addSteps_objsOf_pred _ _ _ _ _
      (by decide : hasCuisineP ≠ rdfTypeP)
      (by decide : hasCuisineP ≠ rdfsLabelP)
      (by decide : hasCuisineP ≠ schemaPositionP)
      (by decide : hasCuisineP ≠ schemaStepP),
      infer_objsOf_pred
        (by decide : hasCuisineP ≠ hasDietP)
        (by decide : hasCuisineP ≠ avoidsCategoryP),
      addIngredients_objsOf_pred _ _ _ _
        (by decide : hasCuisineP ≠ rdfTypeP)
        (by decide : hasCuisineP ≠ rdfsLabelP)
        (by decide : hasCuisineP ≠ hasIngredientP),
      addScalars_objsOf (by decide : hasCuisineP ∉ scalarPreds),
      objsOf_addFact_ne
        (fun hc => (by decide : rdfsLabelP ≠ hasCuisineP) hc.2),
      objsOf_addFact_ne
        (fun hc => (by decide : rdfTypeP ≠ hasCuisineP) hc.2)]
    refine objsOf_eq_nil_of_pred_ne ?_
    exact fun f hf =>
      (by decide : ∀ f ∈ add_ontology_schema [], f.pred ≠ hasCuisineP) f hf
  refine ⟨?_, ?_, ?_⟩
  · intro lastSeg hlast
    rw [addCuisineChain_hasCuisine _ _ _ _ hpre, chainLast_eq, hlast]
  · intro seg hm
    exact addCuisineChain_types _ _ _ _ seg hm
  · intro i h
    exact addCuisineChain_links _ _ _ _ i h

set_option maxRecDepth 1000000 in
/-- Witness for C7 at the Lentil Soup record: the only `hasCuisine`
object of the built recipe is the node of the final segment "Indian". -/
theorem claim_C7_witness :
    (lentilRec.name ≠ "" ∧ lentilRec.cuisine_path = some "Asian>Indian" ∧
      ("Asian>Indian" : String) ≠ "" ∧
      (cuisineSegs "Asian>Indian").getLast? = some "Indian".data) ∧
    objsOf (build_graph [lentilRec]) (recipeUriOf lentilRec.name)
      hasCuisineP = [cuisineUriOf "Indian".data] :=
  ⟨⟨by decide, by decide, by decide, by decide⟩,
    (claim_C7_cuisine_chain lentilRec (by decide) "Asian>Indian"
      (by decide) (by decide)).1.1 "Indian".data (by decide)⟩
